import Mathlib

/-!
# Answer-space binary searches: rotated-array minimum and integer n-th root

A shallow embedding of three C++ files

* `C++/Find-Minimum-Rotated-Sorted-Array.cpp`  (`findMin`, distinct elements),
* `C++/Find-Minimumin-Rotated-Sorted-ArrayII.cpp` (`findMin`, duplicates allowed),
* `C++/Find-n-root-m.cpp` (`nthRootBrut`, `nthRootOptimal`),

followed by theorems about them.

Conventions of the embedding.

* A C++ `int` is a Lean `Int`; every arithmetic result that is stored in an `int`
  goes through `wrap32` (two's-complement wraparound to 32 bits).
* `int / 2` is `Int.tdiv` (C++ division truncates toward zero).
* `vector<int>` is `List Int`; `nums[i]` is `vecGet nums i : Option Int`, which is
  `none` when the index is outside the vector.  A function result `none` therefore
  means "no value is returned": an out-of-range access, or a loop that never exits.
* `while`/`for` loops are recursive functions on a fuel counter.  The fuel handed to
  each loop is large enough to be exhaustive (see the comment at each entry point).
-/

/-! ## Machine integers and vectors -/

/-- The constant `INT_MAX` of a 32-bit `int`. -/
def INT_MAX : Int := 2147483647

/-- The constant `INT_MIN` of a 32-bit `int`. -/
def INT_MIN : Int := -2147483648

/-- Membership in the range of a 32-bit `int`. -/
def isInt32 (x : Int) : Prop := INT_MIN ≤ x ∧ x ≤ INT_MAX

instance (x : Int) : Decidable (isInt32 x) := by
  unfold isInt32; infer_instance

/-- Two's-complement wraparound of an exact integer to a 32-bit `int`.
The conversion of `size_t` to `int` is the same reduction. -/
def wrap32 (x : Int) : Int := (x + 2147483648) % 4294967296 - 2147483648

/-- The element access `nums[i]` for an `int` index; `none` outside the vector. -/
def vecGet (nums : List Int) (i : Int) : Option Int :=
  if 0 ≤ i then nums[i.toNat]? else none

/-- The rotation of a sequence by `k` positions: `S[k..] ++ S[..k]`. -/
def rotate (S : List Int) (k : Nat) : List Int := S.drop k ++ S.take k

/-! ## `Find-Minimum-Rotated-Sorted-Array.cpp` -/

namespace FindMinimumRotatedSortedArray

/-- The `while (low <= high)` loop of `findMin` (lines 10-31). Every iteration
reads `nums[low]`, `nums[high]` and `nums[mid]`. -/
def findMinLoop : Nat → List Int → Int → Int → Int → Option Int
  | 0, _, _, _, _ => none
  | fuel + 1, nums, low, high, ans =>
    if low ≤ high then
      let mid := Int.tdiv (wrap32 (low + high)) 2
      match vecGet nums low, vecGet nums high, vecGet nums mid with
      | some a, some b, some c =>
        -- complete sorted
        let ans1 := if a ≤ b then min ans a else ans
        -- left sorted
        if a ≤ c then
          findMinLoop fuel nums (wrap32 (mid + 1)) high (min ans1 a)
        else
          findMinLoop fuel nums low (wrap32 (mid - 1)) (min ans1 c)
      | _, _, _ => none
    else some ans

/-- The function `findMin` (lines 6-33): `low = 0`, `high = nums.size() - 1`,
`ans = INT_MAX`.  An iteration either leaves the vector or shrinks `high - low`,
so `nums.length + 1` units of fuel are exhaustive. -/
def findMin (nums : List Int) : Option Int :=
  findMinLoop (nums.length + 1) nums 0 (wrap32 ((nums.length : Int) - 1)) INT_MAX

end FindMinimumRotatedSortedArray

/-! ## `Find-Minimumin-Rotated-Sorted-ArrayII.cpp` -/

namespace FindMinimumRotatedSortedArrayII

/-- The `while (low <= high)` loop of `findMin` (lines 9-38), with the extra
branch for `nums[mid] == nums[low] && nums[mid] == nums[high]`. -/
def findMinLoop : Nat → List Int → Int → Int → Int → Option Int
  | 0, _, _, _, _ => none
  | fuel + 1, nums, low, high, ans =>
    if low ≤ high then
      let mid := Int.tdiv (wrap32 (low + high)) 2
      match vecGet nums low, vecGet nums high, vecGet nums mid with
      | some a, some b, some c =>
        if c = a ∧ c = b then
          findMinLoop fuel nums (wrap32 (low + 1)) (wrap32 (high - 1)) (min ans a)
        else
          -- complete sorted
          let ans1 := if a ≤ b then min ans a else ans
          -- left sorted
          if a ≤ c then
            findMinLoop fuel nums (wrap32 (mid + 1)) high (min ans1 a)
          else
            findMinLoop fuel nums low (wrap32 (mid - 1)) (min ans1 c)
      | _, _, _ => none
    else some ans

/-- The function `findMin` (lines 5-40).  As for the first variant,
`nums.length + 1` units of fuel are exhaustive. -/
def findMin (nums : List Int) : Option Int :=
  findMinLoop (nums.length + 1) nums 0 (wrap32 ((nums.length : Int) - 1)) INT_MAX

end FindMinimumRotatedSortedArrayII

/-! ## `Find-n-root-m.cpp` -/

/-- The inner loop `for (int j = 1; j <= n; j++) ans *= i;` started at counter `j`
with accumulator `ans`; the product and the counter increment are 32-bit. -/
def powLoop : Nat → Int → Int → Int → Int → Option Int
  | 0, _, _, _, _ => none
  | fuel + 1, n, i, j, ans =>
    if j ≤ n then powLoop fuel n i (wrap32 (j + 1)) (wrap32 (ans * i)) else some ans

/-- The value of `ans` after `int ans = 1; for (int j = 1; j <= n; j++) ans *= i;`.
For `n < INT_MAX` the loop exits after `n` rounds, so `n + 1` units of fuel are
exhaustive; for `n = INT_MAX` the test `j <= n` never fails and the result is `none`. -/
def intPow (n i : Int) : Option Int := powLoop (n.toNat + 1) n i 1 1

/-- The loop `for (int i = 1; i <= m; i++)` of `nthRootBrut` (lines 13-27),
started at counter `i`. -/
def brutLoop : Nat → Int → Int → Int → Option Int
  | 0, _, _, _ => none
  | fuel + 1, n, m, i =>
    if i ≤ m then
      match intPow n i with
      | none => none
      | some ans =>
        if ans = m then some i
        else if ans > m then some (-1)
        else brutLoop fuel n m (wrap32 (i + 1))
    else some (-1)

/-- The function `nthRootBrut` (lines 4-29).  The loop state is the single 32-bit
counter `i`, so a run of more than `2^32` rounds repeats a state and never exits:
`2^32 + 1` units of fuel are exhaustive. -/
def nthRootBrut (n m : Int) : Option Int :=
  if m = 0 ∨ n = 1 ∨ m = 1 then some m
  else brutLoop 4294967297 n m 1

/-- The loop `while (low <= high)` of `nthRootOptimal` (lines 39-61). -/
def optLoop : Nat → Int → Int → Int → Int → Option Int
  | 0, _, _, _, _ => none
  | fuel + 1, n, m, low, high =>
    if low ≤ high then
      let mid := Int.tdiv (wrap32 (low + high)) 2
      match intPow n mid with
      | none => none
      | some ans =>
        if ans = m then some mid
        else if ans < m then optLoop fuel n m (wrap32 (mid + 1)) high
        else optLoop fuel n m low (wrap32 (mid - 1))
    else some (-1)

/-- The function `nthRootOptimal` (lines 31-64).  The loop state is the pair of
32-bit values `(low, high)`, so `2^64 + 1` units of fuel are exhaustive. -/
def nthRootOptimal (n m : Int) : Option Int :=
  if m = 0 ∨ n = 1 ∨ m = 1 then some m
  else optLoop 18446744073709551617 n m 1 m

/-! ## Specification-level notions -/

/-- The value stored at an index, with a default outside the vector. -/
def valAt (L : List Int) (i : Int) : Int := (L[i.toNat]?).getD 0

/-- The shape of a rotated ascending sequence with its smallest element at index `p`:
two ascending runs `[0, p)` and `[p, n)`, and no element of the second run above
an element of the first. -/
structure RotAt (L : List Int) (p : Int) : Prop where
  p_nonneg : 0 ≤ p
  p_lt : p < L.length
  left : ∀ i j : Int, 0 ≤ i → i ≤ j → j < p → valAt L i ≤ valAt L j
  right : ∀ i j : Int, p ≤ i → i ≤ j → j < L.length → valAt L i ≤ valAt L j
  cross : ∀ i j : Int, 0 ≤ i → i < p → p ≤ j → j < L.length → valAt L j ≤ valAt L i

/-- No value occurs at two different indices of the vector. -/
def DistinctAt (L : List Int) : Prop :=
  ∀ i j : Int, 0 ≤ i → i < L.length → 0 ≤ j → j < L.length → valAt L i = valAt L j → i = j

/-! ## One iteration of each search loop

The loops above, cut into single rounds: the state a round starts in, what the
round does, and the sequence of states a run passes through. -/

/-- The probe `int mid = (low + high) / 2;`, the sum taken in 32-bit arithmetic. -/
def searchMid (low high : Int) : Int := Int.tdiv (wrap32 (low + high)) 2

/-- The loop variables `low`, `high` and `ans` of `findMin`. -/
structure SearchState where
  low : Int
  high : Int
  ans : Int
deriving DecidableEq

/-- What one evaluation of the test `low <= high` and of the loop body does:
leave the loop with the value to return, go on with new loop variables, or read
an element outside the vector. -/
inductive StepResult where
  | exit (ans : Int)
  | next (s : SearchState)
  | outOfRange
deriving DecidableEq

namespace FindMinimumRotatedSortedArray

/-- One round of the loop of `findMin` (lines 10-31). -/
def findMinStep (nums : List Int) (s : SearchState) : StepResult :=
  if s.low ≤ s.high then
    let mid := searchMid s.low s.high
    match vecGet nums s.low, vecGet nums s.high, vecGet nums mid with
    | some a, some b, some c =>
      let ans1 := if a ≤ b then min s.ans a else s.ans
      if a ≤ c then .next ⟨wrap32 (mid + 1), s.high, min ans1 a⟩
      else .next ⟨s.low, wrap32 (mid - 1), min ans1 c⟩
    | _, _, _ => .outOfRange
  else .exit s.ans

/-- The loop variables at the start of round `k` of `findMin nums` (rounds are
counted from 0); `none` when the run has ended before that round. -/
def stateAt (nums : List Int) : Nat → Option SearchState
  | 0 => some ⟨0, wrap32 ((nums.length : Int) - 1), INT_MAX⟩
  | k + 1 =>
    match stateAt nums k with
    | some s =>
      match findMinStep nums s with
      | .next t => some t
      | _ => none
    | none => none

end FindMinimumRotatedSortedArray

namespace FindMinimumRotatedSortedArrayII

/-- One round of the loop of `findMin` (lines 9-38). -/
def findMinStep (nums : List Int) (s : SearchState) : StepResult :=
  if s.low ≤ s.high then
    let mid := searchMid s.low s.high
    match vecGet nums s.low, vecGet nums s.high, vecGet nums mid with
    | some a, some b, some c =>
      if c = a ∧ c = b then
        .next ⟨wrap32 (s.low + 1), wrap32 (s.high - 1), min s.ans a⟩
      else
        let ans1 := if a ≤ b then min s.ans a else s.ans
        if a ≤ c then .next ⟨wrap32 (mid + 1), s.high, min ans1 a⟩
        else .next ⟨s.low, wrap32 (mid - 1), min ans1 c⟩
    | _, _, _ => .outOfRange
  else .exit s.ans

/-- The loop variables at the start of round `k` of `findMin nums`. -/
def stateAt (nums : List Int) : Nat → Option SearchState
  | 0 => some ⟨0, wrap32 ((nums.length : Int) - 1), INT_MAX⟩
  | k + 1 =>
    match stateAt nums k with
    | some s =>
      match findMinStep nums s with
      | .next t => some t
      | _ => none
    | none => none

end FindMinimumRotatedSortedArrayII

/-- The loop variables `low` and `high` of `nthRootOptimal`. -/
structure RootRange where
  low : Int
  high : Int
deriving DecidableEq

/-- What one round of the loop of `nthRootOptimal` does: return the probe, leave the
loop without a match, go on with a new range, or hang in the power loop. -/
inductive RootStep where
  | found (r : Int)
  | notFound
  | next (s : RootRange)
  | diverges
deriving DecidableEq

/-- One round of the loop of `nthRootOptimal` (lines 39-61). -/
def optStep (n m : Int) (s : RootRange) : RootStep :=
  if s.low ≤ s.high then
    let mid := searchMid s.low s.high
    match intPow n mid with
    | none => .diverges
    | some ans =>
      if ans = m then .found mid
      else if ans < m then .next ⟨wrap32 (mid + 1), s.high⟩
      else .next ⟨s.low, wrap32 (mid - 1)⟩
  else .notFound

/-- The range at the start of round `k` of `nthRootOptimal n m`; `none` when the
call has ended before that round (or returned at the guard in lines 33-36). -/
def optStateAt (n m : Int) : Nat → Option RootRange
  | 0 => if m = 0 ∨ n = 1 ∨ m = 1 then none else some ⟨1, m⟩
  | k + 1 =>
    match optStateAt n m k with
    | some s =>
      match optStep n m s with
      | .next t => some t
      | _ => none
    | none => none

/-- The reported value is an element of the vector: it is a value `v` that occurs in
`nums`, is at least the minimum of `nums`, at most `nums[0]`, and is `INT_MAX` only
if `INT_MAX` occurs in `nums`. -/
def ReportsElement (nums : List Int) (result : Option Int) : Prop :=
  ∃ v, result = some v ∧ v ∈ nums ∧ (∀ m, nums.min? = some m → m ≤ v) ∧
    (∀ x, nums.head? = some x → v ≤ x) ∧ (v = INT_MAX → INT_MAX ∈ nums)

/-- The strictly ascending vector `[0, 1, ..., N - 1]`. -/
def ascendingVector (N : Nat) : List Int := (List.range N).map Int.ofNat

/-! ## Basic facts about 32-bit arithmetic and indexing -/

theorem wrap32_eq_self {x : Int} (h0 : -2147483648 ≤ x) (h1 : x ≤ 2147483647) :
    wrap32 x = x := by
  unfold wrap32
  omega

theorem wrap32_of_isInt32 {x : Int} (h : isInt32 x) : wrap32 x = x := by
  unfold isInt32 INT_MIN INT_MAX at h
  unfold wrap32
  omega

theorem wrap32_le_max (x : Int) : wrap32 x ≤ INT_MAX := by
  unfold wrap32 INT_MAX
  omega

theorem vecGet_eq_valAt (L : List Int) (i : Int) (h0 : 0 ≤ i) (h1 : i < L.length) :
    vecGet L i = some (valAt L i) := by
  have hlt : i.toNat < L.length := by omega
  simp [vecGet, valAt, h0, List.getElem?_eq_getElem hlt]

theorem valAt_mem (L : List Int) (i : Int) (h0 : 0 ≤ i) (h1 : i < L.length) :
    valAt L i ∈ L := by
  have hlt : i.toNat < L.length := by omega
  simp [valAt, List.getElem?_eq_getElem hlt]

theorem valAt_eq_getElem (L : List Int) (a : Nat) (h : a < L.length) :
    valAt L (a : Int) = L[a] := by
  simp [valAt, List.getElem?_eq_getElem h]

theorem length_rotate_eq (S : List Int) (k : Nat) (hk : k ≤ S.length) :
    (rotate S k).length = S.length := by
  simp [rotate]
  omega

/-- Reading a rotated sequence: the first `n - k` places hold `S[k..]`. -/
theorem valAt_rotate_low (S : List Int) (k : Nat) (hk : k ≤ S.length) (i : Int)
    (h0 : 0 ≤ i) (h1 : i + k < S.length) :
    valAt (rotate S k) i = valAt S (i + k) := by
  obtain ⟨a, rfl⟩ := Int.eq_ofNat_of_zero_le h0
  have ha : a + k < S.length := by exact_mod_cast h1
  have h2 : ((a : Int) + (k : Int)) = ((a + k : Nat) : Int) := by push_cast; rfl
  rw [h2, valAt_eq_getElem S (a + k) ha]
  unfold valAt rotate
  have hd : a < (S.drop k).length := by simp; omega
  simp only [Int.toNat_ofNat]
  rw [List.getElem?_append_left hd, List.getElem?_drop]
  have hka : k + a < S.length := by omega
  rw [List.getElem?_eq_getElem hka]
  simp [Nat.add_comm]

/-- Reading a rotated sequence: the last `k` places hold `S[..k]`. -/
theorem valAt_rotate_high (S : List Int) (k : Nat) (hk : k ≤ S.length) (i : Int)
    (h0 : (S.length : Int) ≤ i + k) (h1 : i < S.length) (hi : 0 ≤ i) :
    valAt (rotate S k) i = valAt S (i + k - S.length) := by
  obtain ⟨a, rfl⟩ := Int.eq_ofNat_of_zero_le hi
  have ha : a < S.length := by exact_mod_cast h1
  have hak : S.length ≤ a + k := by exact_mod_cast h0
  have h2 : ((a : Int) + (k : Int) - (S.length : Int)) = ((a + k - S.length : Nat) : Int) := by
    omega
  have hlt : a + k - S.length < S.length := by omega
  rw [h2, valAt_eq_getElem S (a + k - S.length) hlt]
  unfold valAt rotate
  have hd : (S.drop k).length ≤ a := by simp; omega
  simp only [Int.toNat_ofNat]
  rw [List.getElem?_append_right hd, List.getElem?_take]
  have hidx : a - (S.drop k).length = a + k - S.length := by simp; omega
  rw [hidx]
  have hk2 : a + k - S.length < k := by omega
  simp [hk2, List.getElem?_eq_getElem hlt]

theorem valAt_mono_of_pairwise (S : List Int) (h : S.Pairwise (· ≤ ·)) (i j : Int)
    (h0 : 0 ≤ i) (hij : i ≤ j) (hj : j < S.length) : valAt S i ≤ valAt S j := by
  obtain ⟨a, rfl⟩ := Int.eq_ofNat_of_zero_le h0
  obtain ⟨b, rfl⟩ := Int.eq_ofNat_of_zero_le (le_trans h0 hij)
  have hb : b < S.length := by exact_mod_cast hj
  have hab : a ≤ b := by exact_mod_cast hij
  have ha : a < S.length := lt_of_le_of_lt hab hb
  rw [valAt_eq_getElem S a ha, valAt_eq_getElem S b hb]
  rcases Nat.eq_or_lt_of_le hab with heq | hlt
  · subst heq; exact le_refl _
  · exact (List.pairwise_iff_getElem.mp h) a b ha hb hlt

theorem valAt_strictMono_of_pairwise (S : List Int) (h : S.Pairwise (· < ·)) (i j : Int)
    (h0 : 0 ≤ i) (hij : i < j) (hj : j < S.length) : valAt S i < valAt S j := by
  obtain ⟨a, rfl⟩ := Int.eq_ofNat_of_zero_le h0
  obtain ⟨b, rfl⟩ := Int.eq_ofNat_of_zero_le (le_trans h0 (le_of_lt hij))
  have hb : b < S.length := by exact_mod_cast hj
  have hab : a < b := by exact_mod_cast hij
  have ha : a < S.length := lt_trans hab hb
  rw [valAt_eq_getElem S a ha, valAt_eq_getElem S b hb]
  exact (List.pairwise_iff_getElem.mp h) a b ha hb hab

/-! ## The shape of a rotated ascending sequence -/

theorem rotAt_rotate (S : List Int) (h : S.Pairwise (· ≤ ·)) (k : Nat) (hk : k < S.length) :
    ∃ p, RotAt (rotate S k) p ∧ valAt (rotate S k) p = valAt S 0 := by
  have hlen := length_rotate_eq S k (le_of_lt hk)
  have hkl := le_of_lt hk
  rcases Nat.eq_zero_or_pos k with hk0 | hkpos
  · -- no rotation: one ascending run, smallest element first
    subst hk0
    refine ⟨0, ⟨le_refl _, ?_, ?_, ?_, ?_⟩, ?_⟩
    · rw [hlen]; exact_mod_cast hk
    · intro i j h0 hij hj; omega
    · intro i j h0 hij hj
      rw [hlen] at hj
      rw [valAt_rotate_low S 0 hkl i h0 (by push_cast; omega),
        valAt_rotate_low S 0 hkl j (by omega) (by push_cast; omega)]
      exact valAt_mono_of_pairwise S h _ _ (by push_cast; omega) (by omega)
        (by push_cast; omega)
    · intro i j h0 hi; omega
    · rw [valAt_rotate_low S 0 hkl 0 (le_refl _) (by push_cast; omega)]
      simp
  · -- the smallest element sits at index `n - k`
    refine ⟨(S.length : Int) - k, ⟨by omega, ?_, ?_, ?_, ?_⟩, ?_⟩
    · rw [hlen]; omega
    · intro i j h0 hij hj
      rw [valAt_rotate_low S k hkl i h0 (by omega),
        valAt_rotate_low S k hkl j (by omega) (by omega)]
      exact valAt_mono_of_pairwise S h _ _ (by omega) (by omega) (by omega)
    · intro i j hi hij hj
      rw [hlen] at hj
      rw [valAt_rotate_high S k hkl i (by omega) (by omega) (by omega),
        valAt_rotate_high S k hkl j (by omega) (by omega) (by omega)]
      exact valAt_mono_of_pairwise S h _ _ (by omega) (by omega) (by omega)
    · intro i j h0 hi hj hjn
      rw [hlen] at hjn
      rw [valAt_rotate_low S k hkl i h0 (by omega),
        valAt_rotate_high S k hkl j (by omega) (by omega) (by omega)]
      exact valAt_mono_of_pairwise S h _ _ (by omega) (by omega) (by omega)
    · rw [valAt_rotate_high S k hkl _ (by omega) (by omega) (by omega)]
      congr 1
      omega

theorem distinctAt_rotate (S : List Int) (h : S.Pairwise (· < ·)) (k : Nat)
    (hk : k < S.length) : DistinctAt (rotate S k) := by
  have hlen := length_rotate_eq S k (le_of_lt hk)
  have hkl := le_of_lt hk
  have hinj : ∀ a b : Int, 0 ≤ a → a < S.length → 0 ≤ b → b < S.length →
      valAt S a = valAt S b → a = b := by
    intro a b ha0 ha hb0 hb hab
    rcases lt_trichotomy a b with hlt | heq | hgt
    · have := valAt_strictMono_of_pairwise S h a b ha0 hlt hb
      omega
    · exact heq
    · have := valAt_strictMono_of_pairwise S h b a hb0 hgt ha
      omega
  intro i j hi0 hi hj0 hj hij
  rw [hlen] at hi hj
  by_cases hci : i + k < S.length <;> by_cases hcj : j + k < S.length
  · rw [valAt_rotate_low S k hkl i hi0 hci, valAt_rotate_low S k hkl j hj0 hcj] at hij
    have := hinj _ _ (by omega) hci (by omega) hcj hij
    omega
  · rw [valAt_rotate_low S k hkl i hi0 hci,
      valAt_rotate_high S k hkl j (by omega) hj hj0] at hij
    have := hinj _ _ (by omega) hci (by omega) (by omega) hij
    omega
  · rw [valAt_rotate_high S k hkl i (by omega) hi hi0,
      valAt_rotate_low S k hkl j hj0 hcj] at hij
    have := hinj _ _ (by omega) (by omega) (by omega) hcj hij
    omega
  · rw [valAt_rotate_high S k hkl i (by omega) hi hi0,
      valAt_rotate_high S k hkl j (by omega) hj hj0] at hij
    have := hinj _ _ (by omega) (by omega) (by omega) (by omega) hij
    omega

/-- The element at the pivot is a lower bound of the whole vector. -/
theorem RotAt.pivot_le {L : List Int} {p : Int} (h : RotAt L p) (i : Int)
    (h0 : 0 ≤ i) (h1 : i < L.length) : valAt L p ≤ valAt L i := by
  rcases lt_or_le i p with hlt | hge
  · exact h.cross i p h0 hlt (le_refl _) h.p_lt
  · exact h.right p i (le_refl _) hge h1

theorem min?_eq_of_pairwise (S : List Int) (h : S.Pairwise (· ≤ ·)) (hne : 0 < S.length) :
    S.min? = some (valAt S 0) := by
  haveI : Std.Antisymm (fun (x1 x2 : Int) => x1 ≤ x2) :=
    ⟨fun h1 h2 => le_antisymm h1 h2⟩
  have key : S.min? = some (valAt S 0) ↔ valAt S 0 ∈ S ∧ ∀ b, b ∈ S → valAt S 0 ≤ b :=
    List.min?_eq_some_iff (fun a => le_refl a)
      (fun a b => by rcases le_total a b with hab | hab <;> simp [hab])
      (fun a b c => le_min_iff)
  rw [key]
  refine ⟨valAt_mem S 0 (le_refl _) (by exact_mod_cast hne), ?_⟩
  intro b hb
  obtain ⟨n, hn, rfl⟩ := List.getElem_of_mem hb
  rw [← valAt_eq_getElem S n hn]
  exact valAt_mono_of_pairwise S h 0 n (le_refl _) (by omega) (by exact_mod_cast hn)

/-! ## Correctness of the two `findMin` loops on rotated ascending vectors -/

/-- The probe of an index range computed in 32-bit arithmetic is the exact floor
average, as long as `high` is below `2^30`. -/
theorem mid_eq (low high : Int) (h0 : 0 ≤ low) (hlh : low ≤ high)
    (hh : high < 1073741824) :
    Int.tdiv (wrap32 (low + high)) 2 = (low + high) / 2 := by
  rw [wrap32_eq_self (by omega) (by omega)]
  exact Int.tdiv_eq_ediv (by omega) (by norm_num)

theorem findMinDistinctLoop_rot (L : List Int) (p : Int)
    (hrot : RotAt L p) (hd : DistinctAt L) (hlen : (L.length : Int) ≤ 1073741824) :
    ∀ (fuel : Nat) (low high ans : Int), 0 ≤ low → high < L.length → low ≤ high + 1 →
      high - low + 1 < fuel → valAt L p ≤ ans →
      (ans = valAt L p ∨ (low ≤ p ∧ p ≤ high)) →
      FindMinimumRotatedSortedArray.findMinLoop fuel L low high ans = some (valAt L p) := by
  intro fuel
  induction fuel with
  | zero => intro low high ans h0 h1 h2 hf; omega
  | succ fuel ih =>
    intro low high ans h0 h1 h2 hf hans hinv
    unfold FindMinimumRotatedSortedArray.findMinLoop
    by_cases hlh : low ≤ high
    · simp only [hlh, if_true]
      rw [mid_eq low high h0 hlh (by omega)]
      have hm1 : low ≤ (low + high) / 2 := by omega
      have hm2 : (low + high) / 2 ≤ high := by omega
      generalize (low + high) / 2 = mid at hm1 hm2
      rw [vecGet_eq_valAt L low h0 (by omega), vecGet_eq_valAt L high (by omega) h1,
        vecGet_eq_valAt L mid (by omega) (by omega)]
      simp only []
      rw [wrap32_eq_self (x := mid + 1) (by omega) (by omega),
        wrap32_eq_self (x := mid - 1) (by omega) (by omega)]
      have ha := hrot.pivot_le low h0 (by omega)
      have hc := hrot.pivot_le mid (by omega) (by omega)
      have hp0 := hrot.p_nonneg
      have hpn := hrot.p_lt
      by_cases hac : valAt L low ≤ valAt L mid
      · simp only [hac, if_true]
        apply ih _ _ _ (by omega) h1 (by omega) (by omega)
        · split_ifs <;> omega
        · rcases hinv with hinv | ⟨hlp, hph⟩
          · left; split_ifs <;> omega
          · rcases le_or_lt p mid with hpm | hpm
            · left
              rcases eq_or_lt_of_le hlp with heq | hlt
              · subst heq; split_ifs <;> omega
              · -- `low` in the first run and `mid` in the second: excluded by distinctness
                have hcross := hrot.cross low mid h0 hlt hpm (by omega)
                have heq : valAt L low = valAt L mid := le_antisymm hac hcross
                have := hd low mid h0 (by omega) (by omega) (by omega) heq
                omega
            · right; omega
      · simp only [hac, if_false]
        apply ih _ _ _ h0 (by omega) (by omega) (by omega)
        · split_ifs <;> omega
        · rcases hinv with hinv | ⟨hlp, hph⟩
          · left; split_ifs <;> omega
          · rcases lt_or_le p mid with hpm | hpm
            · right; omega
            · left
              rcases eq_or_lt_of_le hpm with heq | hlt
              · subst heq; split_ifs <;> omega
              · have := hrot.left low mid h0 hm1 hlt
                omega
    · simp only [hlh, if_false]
      rcases hinv with hinv | ⟨hlp, hph⟩
      · rw [hinv]
      · omega

theorem findMinDupLoop_rot (L : List Int) (p : Int)
    (hrot : RotAt L p) (hlen : (L.length : Int) ≤ 1073741824) :
    ∀ (fuel : Nat) (low high ans : Int), 0 ≤ low → high < L.length → 0 < fuel →
      high - low + 1 < fuel → valAt L p ≤ ans →
      (ans = valAt L p ∨ (low ≤ p ∧ p ≤ high)) →
      FindMinimumRotatedSortedArrayII.findMinLoop fuel L low high ans
        = some (valAt L p) := by
  intro fuel
  induction fuel with
  | zero => intro low high ans h0 h1 h2 hf; omega
  | succ fuel ih =>
    intro low high ans h0 h1 h2 hf hans hinv
    unfold FindMinimumRotatedSortedArrayII.findMinLoop
    by_cases hlh : low ≤ high
    · simp only [hlh, if_true]
      rw [mid_eq low high h0 hlh (by omega)]
      have hm1 : low ≤ (low + high) / 2 := by omega
      have hm2 : (low + high) / 2 ≤ high := by omega
      generalize (low + high) / 2 = mid at hm1 hm2
      rw [vecGet_eq_valAt L low h0 (by omega), vecGet_eq_valAt L high (by omega) h1,
        vecGet_eq_valAt L mid (by omega) (by omega)]
      simp only []
      rw [wrap32_eq_self (x := mid + 1) (by omega) (by omega),
        wrap32_eq_self (x := mid - 1) (by omega) (by omega),
        wrap32_eq_self (x := low + 1) (by omega) (by omega),
        wrap32_eq_self (x := high - 1) (by omega) (by omega)]
      have ha := hrot.pivot_le low h0 (by omega)
      have hb := hrot.pivot_le high (by omega) h1
      have hc := hrot.pivot_le mid (by omega) (by omega)
      have hp0 := hrot.p_nonneg
      have hpn := hrot.p_lt
      by_cases heq3 : valAt L mid = valAt L low ∧ valAt L mid = valAt L high
      · -- the three probes coincide: shrink the range from both ends
        rw [if_pos heq3]
        rcases eq_or_lt_of_le hlh with hsame | hlt3
        · -- a single element is left: the loop ends after this round
          subst hsame
          have hmid : mid = low := by omega
          subst hmid
          have hp : ans ⊓ valAt L mid = valAt L p := by
            rcases hinv with hinv | ⟨hlp, hph⟩
            · omega
            · have : p = mid := by omega
              subst this; omega
          cases fuel with
          | zero => omega
          | succ fuel =>
            unfold FindMinimumRotatedSortedArrayII.findMinLoop
            rw [if_neg (by omega), hp]
        · apply ih _ _ _ (by omega) (by omega) (by omega) (by omega)
          · omega
          · rcases hinv with hinv | ⟨hlp, hph⟩
            · left; omega
            · rcases eq_or_lt_of_le hlp with heq | hlt
              · subst heq; left; omega
              · rcases eq_or_lt_of_le hph with heq | hlt2
                · subst heq; left; omega
                · right; omega
      · rw [if_neg heq3]
        by_cases hac : valAt L low ≤ valAt L mid
        · simp only [hac, if_true]
          apply ih _ _ _ (by omega) h1 (by omega) (by omega)
          · split_ifs <;> omega
          · rcases hinv with hinv | ⟨hlp, hph⟩
            · left; split_ifs <;> omega
            · rcases le_or_lt p mid with hpm | hpm
              · left
                rcases eq_or_lt_of_le hlp with heq | hlt
                · subst heq; split_ifs; omega
                · -- `low` in the first run, `mid` and `high` in the second:
                  -- then all three probes are equal, which this branch excludes
                  have hcross := hrot.cross low mid h0 hlt hpm (by omega)
                  have hcross2 := hrot.cross low high h0 hlt (by omega) h1
                  have hright := hrot.right mid high hpm hm2 h1
                  exact absurd ⟨by omega, by omega⟩ heq3
              · right; omega
        · simp only [hac, if_false]
          apply ih _ _ _ h0 (by omega) (by omega) (by omega)
          · split_ifs <;> omega
          · rcases hinv with hinv | ⟨hlp, hph⟩
            · left; split_ifs <;> omega
            · rcases lt_or_le p mid with hpm | hpm
              · right; omega
              · left
                rcases eq_or_lt_of_le hpm with heq | hlt
                · subst heq; split_ifs <;> omega
                · have := hrot.left low mid h0 hm1 hlt
                  omega
    · simp only [hlh, if_false]
      rcases hinv with hinv | ⟨hlp, hph⟩
      · rw [hinv]
      · omega

/-- The distinct-element `findMin` returns the minimum of every rotation of a strictly
ascending vector of 32-bit values with at most `2^30` elements. -/
theorem findMinDistinct_rotate (S : List Int) (k : Nat)
    (hsorted : S.Pairwise (· < ·)) (hint : ∀ x ∈ S, isInt32 x)
    (hlen : S.length ≤ 2 ^ 30) (hk : k < S.length) :
    FindMinimumRotatedSortedArray.findMin (rotate S k) = S.min? := by
  have hle : S.Pairwise (· ≤ ·) := hsorted.imp (fun h => le_of_lt h)
  have hpos : 0 < S.length := by omega
  obtain ⟨p, hrot, hp⟩ := rotAt_rotate S hle k hk
  have hd := distinctAt_rotate S hsorted k hk
  have hL := length_rotate_eq S k (le_of_lt hk)
  have hmax : valAt S 0 ≤ INT_MAX :=
    (hint _ (valAt_mem S 0 (le_refl _) (by exact_mod_cast hpos))).2
  rw [min?_eq_of_pairwise S hle hpos, ← hp]
  unfold FindMinimumRotatedSortedArray.findMin
  have hlen2 : ((rotate S k).length : Int) ≤ 1073741824 := by
    rw [hL]; norm_num at hlen; exact_mod_cast hlen
  rw [wrap32_eq_self (by omega) (by omega)]
  have hp0 := hrot.p_nonneg
  have hpn := hrot.p_lt
  apply findMinDistinctLoop_rot (rotate S k) p hrot hd hlen2
  · exact le_refl _
  · omega
  · omega
  · push_cast; omega
  · rw [hp]; exact hmax
  · right; omega

/-- The duplicate-tolerant `findMin` returns the minimum of every rotation of a
non-decreasing vector of 32-bit values with at most `2^30` elements. -/
theorem findMinDup_rotate (S : List Int) (k : Nat)
    (hsorted : S.Pairwise (· ≤ ·)) (hint : ∀ x ∈ S, isInt32 x)
    (hlen : S.length ≤ 2 ^ 30) (hk : k < S.length) :
    FindMinimumRotatedSortedArrayII.findMin (rotate S k) = S.min? := by
  have hpos : 0 < S.length := by omega
  obtain ⟨p, hrot, hp⟩ := rotAt_rotate S hsorted k hk
  have hL := length_rotate_eq S k (le_of_lt hk)
  have hmax : valAt S 0 ≤ INT_MAX :=
    (hint _ (valAt_mem S 0 (le_refl _) (by exact_mod_cast hpos))).2
  rw [min?_eq_of_pairwise S hsorted hpos, ← hp]
  unfold FindMinimumRotatedSortedArrayII.findMin
  have hlen2 : ((rotate S k).length : Int) ≤ 1073741824 := by
    rw [hL]; norm_num at hlen; exact_mod_cast hlen
  rw [wrap32_eq_self (by omega) (by omega)]
  have hp0 := hrot.p_nonneg
  have hpn := hrot.p_lt
  apply findMinDupLoop_rot (rotate S k) p hrot hlen2
  · exact le_refl _
  · omega
  · omega
  · push_cast; omega
  · rw [hp]; exact hmax
  · right; omega

/-! ## Claims about the minimum finders -/

/-- C1, amended. For every non-empty strictly ascending sequence `S` of 32-bit
integers of length at most `2^30` (so that the `int` sum `low + high` is exact) and
every offset `k < |S|`, the distinct-element `findMin` applied to
`rotate S k = S[k..] ++ S[..k]` returns the minimum of `S`. -/
theorem findMinDistinct_rotate_eq_min (S : List Int) (k : Nat)
    (hsorted : S.Pairwise (· < ·)) (hint : ∀ x ∈ S, isInt32 x)
    (hlen : S.length ≤ 2 ^ 30) (hk : k < S.length) :
    FindMinimumRotatedSortedArray.findMin (rotate S k) = S.min? :=
  findMinDistinct_rotate S k hsorted hint hlen hk

/-- C1, amended, witness: `findMin([4,5,6,7,0,1,2,3]) = 0`, the rotation by 4 of `[0,..,7]`. -/
theorem findMinDistinct_rotate_eq_min_witness :
    rotate [0, 1, 2, 3, 4, 5, 6, 7] 4 = [4, 5, 6, 7, 0, 1, 2, 3] ∧
    FindMinimumRotatedSortedArray.findMin (rotate [0, 1, 2, 3, 4, 5, 6, 7] 4)
      = [0, 1, 2, 3, 4, 5, 6, 7].min? ∧
    [0, 1, 2, 3, 4, 5, 6, 7].min? = some (0 : Int) :=
  ⟨by decide,
   findMinDistinct_rotate_eq_min [0, 1, 2, 3, 4, 5, 6, 7] 4 (by decide) (by decide)
     (by decide) (by decide),
   by decide⟩

/-- C2, amended. For every non-empty non-decreasing sequence `S` of 32-bit integers
(duplicates allowed) of length at most `2^30` and every offset `k < |S|`, the
duplicate-tolerant
`findMin` applied to `rotate S k = S[k..] ++ S[..k]` returns the minimum of `S`. -/
theorem findMinWithDuplicates_rotate_eq_min (S : List Int) (k : Nat)
    (hsorted : S.Pairwise (· ≤ ·)) (hint : ∀ x ∈ S, isInt32 x)
    (hlen : S.length ≤ 2 ^ 30) (hk : k < S.length) :
    FindMinimumRotatedSortedArrayII.findMin (rotate S k) = S.min? :=
  findMinDup_rotate S k hsorted hint hlen hk

/-- C2, amended, witness: `findMin([2,2,2,0,1]) = 0`, the rotation by 2 of `[0,1,2,2,2]`. -/
theorem findMinWithDuplicates_rotate_eq_min_witness :
    rotate [0, 1, 2, 2, 2] 2 = [2, 2, 2, 0, 1] ∧
    FindMinimumRotatedSortedArrayII.findMin (rotate [0, 1, 2, 2, 2] 2)
      = [0, 1, 2, 2, 2].min? ∧
    [0, 1, 2, 2, 2].min? = some (0 : Int) :=
  ⟨by decide,
   findMinWithDuplicates_rotate_eq_min [0, 1, 2, 2, 2] 2 (by decide) (by decide)
     (by decide) (by decide),
   by decide⟩

/-! ## The 32-bit power loop -/

theorem isInt32_wrap32 (x : Int) : isInt32 (wrap32 x) := by
  unfold isInt32 INT_MIN INT_MAX wrap32
  omega

theorem wrap32_modEq (x : Int) : wrap32 x ≡ x [ZMOD 4294967296] := by
  unfold wrap32 Int.ModEq
  omega

theorem wrap32_congr {x y : Int} (h : x ≡ y [ZMOD 4294967296]) : wrap32 x = wrap32 y := by
  have h2 := h.add_right 2147483648
  unfold Int.ModEq at h2
  unfold wrap32
  rw [h2]

theorem wrap32_mul_left (a b : Int) : wrap32 (wrap32 a * b) = wrap32 (a * b) :=
  wrap32_congr ((wrap32_modEq a).mul_right b)

/-- With `n < INT_MAX` the power loop leaves `ans * i ^ k` (wrapped) after the `k`
rounds that remain. -/
theorem powLoop_eq (n i : Int) (hn : n < INT_MAX) :
    ∀ (k fuel : Nat) (j ans : Int), isInt32 ans → 1 ≤ j → j + k = n + 1 → k < fuel →
      powLoop fuel n i j ans = some (wrap32 (ans * i ^ k)) := by
  intro k
  induction k with
  | zero =>
    intro fuel j ans hans hj hjk hf
    cases fuel with
    | zero => omega
    | succ fuel =>
      unfold powLoop
      have : ¬ j ≤ n := by omega
      simp [this, wrap32_of_isInt32 hans]
  | succ k ih =>
    intro fuel j ans hans hj hjk hf
    cases fuel with
    | zero => omega
    | succ fuel =>
      unfold powLoop
      have hjn : j ≤ n := by omega
      unfold INT_MAX at hn
      rw [if_pos hjn, wrap32_eq_self (x := j + 1) (by omega) (by omega)]
      rw [ih fuel (j + 1) (wrap32 (ans * i)) (isInt32_wrap32 _) (by omega) (by omega)
        (by omega)]
      rw [wrap32_mul_left, pow_succ]
      congr 2
      ring

theorem intPow_eq (n i : Int) (h0 : 0 ≤ n) (hn : n < INT_MAX) :
    intPow n i = some (wrap32 (i ^ n.toNat)) := by
  unfold intPow
  rw [powLoop_eq n i hn n.toNat (n.toNat + 1) 1 1 (by decide) (le_refl _) (by omega)
    (by omega)]
  simp

/-- With `n = INT_MAX` the test `j <= n` never fails: the power loop does not exit. -/
theorem powLoop_max (i : Int) :
    ∀ (fuel : Nat) (j ans : Int), j ≤ INT_MAX → powLoop fuel INT_MAX i j ans = none := by
  intro fuel
  induction fuel with
  | zero => intro j ans hj; rfl
  | succ fuel ih =>
    intro j ans hj
    unfold powLoop
    rw [if_pos hj]
    exact ih _ _ (wrap32_le_max _)

theorem intPow_max (i : Int) : intPow INT_MAX i = none :=
  powLoop_max i _ 1 1 (by decide)

/-- An exact power that fits in an `int` is what the power loop computes. -/
theorem intPow_exact (n i : Int) (h0 : 0 ≤ n) (hn : n < INT_MAX)
    (hlo : INT_MIN ≤ i ^ n.toNat) (hhi : i ^ n.toNat ≤ INT_MAX) :
    intPow n i = some (i ^ n.toNat) := by
  rw [intPow_eq n i h0 hn, wrap32_of_isInt32 ⟨hlo, hhi⟩]

/-- An exponent whose power of an integer `c ≥ 2` fits in an `int` is below 31. -/
theorem exponent_small (c : Int) (N : Nat) (hc : 2 ≤ c) (h : c ^ N ≤ INT_MAX) : N < 31 := by
  by_contra hcon
  push_neg at hcon
  have h1 : (2 : Int) ^ 31 ≤ 2 ^ N := pow_le_pow_right₀ (by norm_num) hcon
  have h2 : (2 : Int) ^ N ≤ c ^ N := pow_le_pow_left₀ (by norm_num) hc N
  unfold INT_MAX at h
  norm_num at h1
  omega

/-! ## Order facts about exact powers -/

theorem pow_lt_of_lt {a b : Int} {N : Nat} (h0 : 0 ≤ a) (h : a < b) (hN : 2 ≤ N) :
    a ^ N < b ^ N :=
  pow_lt_pow_left₀ h h0 (by omega)

theorem lt_of_pow_lt {a b : Int} {N : Nat} (hb : 0 ≤ b) (h : a ^ N < b ^ N) : a < b := by
  by_contra hcon
  push_neg at hcon
  have := pow_le_pow_left₀ hb hcon N
  omega

theorem eq_of_pow_eq {a b : Int} {N : Nat} (ha : 0 ≤ a) (hb : 0 ≤ b) (hN : 2 ≤ N)
    (h : a ^ N = b ^ N) : a = b := by
  rcases lt_trichotomy a b with hlt | heq | hgt
  · have := pow_lt_of_lt ha hlt hN
    omega
  · exact heq
  · have := pow_lt_of_lt hb hgt hN
    omega

theorem le_pow_self {a : Int} {N : Nat} (ha : 1 ≤ a) (hN : 2 ≤ N) : a ≤ a ^ N :=
  le_self_pow₀ ha (by omega)

/-- A non-negative base whose power (exponent at least 2) fits in an `int` is at
most `46340`. -/
theorem base_small {a : Int} {N : Nat} (hN : 2 ≤ N) (h : a ^ N ≤ INT_MAX) :
    a ≤ 46340 := by
  by_contra hcon
  push_neg at hcon
  have h1 : (46341 : Int) ^ 2 ≤ a ^ 2 := pow_le_pow_left₀ (by norm_num) (by omega) 2
  have h2 : a ^ 2 ≤ a ^ N := pow_le_pow_right₀ (by omega) hN
  unfold INT_MAX at h
  norm_num at h1
  omega

/-! ## The brute-force root without overflow -/

/-- If some power `c ^ n` with `m ≤ c ^ n` fits in an `int`, the brute-force loop
sees only exact powers: it returns the exact root when there is one and `-1`
otherwise. -/
theorem brutLoop_exact (n m c : Int) (hn : 2 ≤ n) (hnmax : n < INT_MAX) (hm : 2 ≤ m)
    (hc : m ≤ c ^ n.toNat) (hcmax : c ^ n.toNat ≤ INT_MAX) :
    ∀ (fuel : Nat) (i : Int), 1 ≤ i → i ≤ c → c - i < fuel →
      (∀ j, 1 ≤ j → j < i → j ^ n.toNat < m) →
      (∀ r, 1 ≤ r → r ^ n.toNat = m → brutLoop fuel n m i = some r) ∧
      ((∀ r, 1 ≤ r → r ^ n.toNat ≠ m) → brutLoop fuel n m i = some (-1)) := by
  have hN : 2 ≤ n.toNat := by omega
  intro fuel
  induction fuel with
  | zero => intro i h1 hic hf; omega
  | succ fuel ih =>
    intro i h1 hic hf hbelow
    have hipow : i ^ n.toNat ≤ INT_MAX :=
      le_trans (pow_le_pow_left₀ (by omega) hic _) hcmax
    have hipos : 1 ≤ i ^ n.toNat := le_trans h1 (le_pow_self h1 hN)
    have him : i ≤ m := by
      rcases eq_or_lt_of_le h1 with heq | hlt
      · omega
      · have hb := hbelow (i - 1) (by omega) (by omega)
        have := le_pow_self (a := i - 1) (N := n.toNat) (by omega) hN
        omega
    have hpw : intPow n i = some (i ^ n.toNat) :=
      intPow_exact n i (by omega) hnmax (by unfold INT_MIN; omega) hipow
    unfold brutLoop
    rw [if_pos him, hpw]
    simp only []
    by_cases heq : i ^ n.toNat = m
    · rw [if_pos heq]
      refine ⟨fun r hr hrm => ?_, fun hno => absurd heq (hno i h1)⟩
      rw [eq_of_pow_eq (by omega) (by omega) hN (hrm.trans heq.symm)]
    · rw [if_neg heq]
      by_cases hgt : i ^ n.toNat > m
      · rw [if_pos hgt]
        refine ⟨fun r hr hrm => ?_, fun _ => rfl⟩
        exfalso
        have hri : r < i := lt_of_pow_lt (N := n.toNat) (by omega) (by omega)
        have := hbelow r hr hri
        omega
      · rw [if_neg hgt]
        have hlt : i ^ n.toNat < m := by omega
        have hic2 : i < c := lt_of_pow_lt (N := n.toNat) (by omega) (by omega)
        unfold INT_MAX at hipow hcmax
        have hcs := base_small hN (show c ^ n.toNat ≤ INT_MAX from hcmax)
        rw [wrap32_eq_self (x := i + 1) (by omega) (by omega)]
        apply ih (i + 1) (by omega) (by omega) (by omega)
        intro j hj1 hji
        rcases eq_or_lt_of_le (show j ≤ i by omega) with hje | hjl
        · rw [hje]; exact hlt
        · exact hbelow j hj1 hjl

/-- The brute-force root on inputs below an `int`-sized power `c ^ n`. -/
theorem nthRootBrut_exact (n m c : Int) (hn : 2 ≤ n) (hnmax : n < INT_MAX) (hm : 2 ≤ m)
    (hc1 : 1 ≤ c) (hc : m ≤ c ^ n.toNat) (hcmax : c ^ n.toNat ≤ INT_MAX) :
    (∀ r, 1 ≤ r → r ^ n.toNat = m → nthRootBrut n m = some r) ∧
    ((∀ r, 1 ≤ r → r ^ n.toNat ≠ m) → nthRootBrut n m = some (-1)) := by
  have hN : 2 ≤ n.toNat := by omega
  have hcs := base_small hN hcmax
  have hguard : ¬ (m = 0 ∨ n = 1 ∨ m = 1) := by omega
  unfold nthRootBrut
  rw [if_neg hguard]
  exact brutLoop_exact n m c hn hnmax hm hc hcmax 4294967297 1 (le_refl _) hc1
    (by omega) (fun j h1 h2 => by omega)

/-! ## The binary-search root without overflow -/

/-- On a range `[low, high]` whose upper end has an `int`-sized power, the binary
search sees only exact powers: it returns the exact root when the range holds one
and `-1` when there is none. -/
theorem optLoop_exact (n m : Int) (hn : 2 ≤ n) (hnmax : n < INT_MAX) :
    ∀ (fuel : Nat) (low high : Int), 1 ≤ low → low ≤ high + 1 →
      high ^ n.toNat ≤ INT_MAX → high - low + 1 < fuel →
      (∀ r, 1 ≤ r → r ^ n.toNat = m → low ≤ r ∧ r ≤ high) →
      (∀ r, 1 ≤ r → r ^ n.toNat = m → optLoop fuel n m low high = some r) ∧
      ((∀ r, 1 ≤ r → r ^ n.toNat ≠ m) → optLoop fuel n m low high = some (-1)) := by
  have hN : 2 ≤ n.toNat := by omega
  intro fuel
  induction fuel with
  | zero => intro low high h1 h2 hp hf; omega
  | succ fuel ih =>
    intro low high h1 h2 hp hf hroots
    unfold optLoop
    by_cases hlh : low ≤ high
    · have hhs := base_small hN hp
      rw [if_pos hlh, mid_eq low high (by omega) hlh (by omega)]
      have hm1 : low ≤ (low + high) / 2 := by omega
      have hm2 : (low + high) / 2 ≤ high := by omega
      generalize (low + high) / 2 = mid at hm1 hm2
      have hmpow : mid ^ n.toNat ≤ INT_MAX :=
        le_trans (pow_le_pow_left₀ (by omega) hm2 _) hp
      have hmpos : 1 ≤ mid ^ n.toNat := le_trans (by omega) (le_pow_self (by omega) hN)
      simp only []
      rw [intPow_exact n mid (by omega) hnmax (by unfold INT_MIN; omega) hmpow]
      simp only []
      by_cases heq : mid ^ n.toNat = m
      · rw [if_pos heq]
        refine ⟨fun r hr hrm => ?_, fun hno => absurd heq (hno mid (by omega))⟩
        rw [eq_of_pow_eq (by omega) (by omega) hN (hrm.trans heq.symm)]
      · rw [if_neg heq]
        by_cases hlt : mid ^ n.toNat < m
        · rw [if_pos hlt, wrap32_eq_self (x := mid + 1) (by omega) (by omega)]
          apply ih (mid + 1) high (by omega) (by omega) hp (by omega)
          intro r hr hrm
          have : mid < r := lt_of_pow_lt (N := n.toNat) (by omega) (by omega)
          exact ⟨by omega, (hroots r hr hrm).2⟩
        · rw [if_neg hlt, wrap32_eq_self (x := mid - 1) (by omega) (by omega)]
          apply ih low (mid - 1) h1 (by omega) _ (by omega)
          · intro r hr hrm
            have : r < mid := lt_of_pow_lt (N := n.toNat) (by omega) (by omega)
            exact ⟨(hroots r hr hrm).1, by omega⟩
          · exact le_trans (pow_le_pow_left₀ (by omega) (by omega) _) hmpow
    · rw [if_neg hlh]
      refine ⟨fun r hr hrm => ?_, fun _ => rfl⟩
      have := hroots r hr hrm
      omega

/-- The first searchMid `(m + 1) / 2` of the search for `m ≥ 3` has a power of at
least `m`. -/
theorem first_mid_pow_ge (m : Int) (N : Nat) (hm : 3 ≤ m) (hN : 2 ≤ N) :
    m ≤ ((m + 1) / 2) ^ N := by
  have h2 : 2 ≤ (m + 1) / 2 := by omega
  have h3 : ((m + 1) / 2) ^ 2 ≤ ((m + 1) / 2) ^ N := pow_le_pow_right₀ (by omega) hN
  have h4 : 2 * ((m + 1) / 2) ≤ ((m + 1) / 2) ^ 2 := by nlinarith
  omega

/-- The binary search started on `[1, m]`, when the power of its first searchMid
fits in an `int`. -/
theorem optLoop_first (n m : Int) (hn : 2 ≤ n) (hnmax : n < INT_MAX) (hm : 3 ≤ m)
    (hmid : ((m + 1) / 2) ^ n.toNat ≤ INT_MAX) (fuel : Nat) (hf : m < fuel) :
    (∀ r, 1 ≤ r → r ^ n.toNat = m → optLoop fuel n m 1 m = some r) ∧
    ((∀ r, 1 ≤ r → r ^ n.toNat ≠ m) → optLoop fuel n m 1 m = some (-1)) := by
  have hN : 2 ≤ n.toNat := by omega
  have hms := base_small hN hmid
  have hge := first_mid_pow_ge m n.toNat hm hN
  cases fuel with
  | zero => omega
  | succ fuel =>
    unfold optLoop
    rw [if_pos (by omega), mid_eq 1 m (by omega) (by omega) (by omega)]
    have hmm : (1 + m) / 2 = (m + 1) / 2 := by rw [add_comm]
    rw [hmm]
    have h2 : 2 ≤ (m + 1) / 2 := by omega
    have h3 : (m + 1) / 2 ≤ m := by omega
    generalize (m + 1) / 2 = mid at hmid hms hge h2 h3
    simp only []
    rw [intPow_exact n mid (by omega) hnmax (by unfold INT_MIN; omega) hmid]
    simp only []
    by_cases heq : mid ^ n.toNat = m
    · rw [if_pos heq]
      refine ⟨fun r hr hrm => ?_, fun hno => absurd heq (hno mid (by omega))⟩
      rw [eq_of_pow_eq (by omega) (by omega) hN (hrm.trans heq.symm)]
    · rw [if_neg heq, if_neg (by omega), wrap32_eq_self (x := mid - 1) (by omega) (by omega)]
      apply optLoop_exact n m hn hnmax fuel 1 (mid - 1) (le_refl _) (by omega) _ (by omega)
      · intro r hr hrm
        have : r < mid := lt_of_pow_lt (N := n.toNat) (by omega) (by omega)
        omega
      · exact le_trans (pow_le_pow_left₀ (by omega) (by omega) _) hmid

theorem nthRootOptimal_exact (n m : Int) (hn : 2 ≤ n) (hnmax : n < INT_MAX) (hm : 3 ≤ m)
    (hmid : ((m + 1) / 2) ^ n.toNat ≤ INT_MAX) :
    (∀ r, 1 ≤ r → r ^ n.toNat = m → nthRootOptimal n m = some r) ∧
    ((∀ r, 1 ≤ r → r ^ n.toNat ≠ m) → nthRootOptimal n m = some (-1)) := by
  have hN : 2 ≤ n.toNat := by omega
  have hms := base_small hN hmid
  have hguard : ¬ (m = 0 ∨ n = 1 ∨ m = 1) := by omega
  unfold nthRootOptimal
  rw [if_neg hguard]
  exact optLoop_first n m hn hnmax hm hmid 18446744073709551617 (by push_cast; omega)

/-! ## The radicand 2 and the exponent `INT_MAX` -/

theorem wrap32_two_pow_ne_two (N : Nat) (hN : 2 ≤ N) : wrap32 (2 ^ N) ≠ 2 := by
  obtain ⟨K, rfl⟩ : ∃ K, N = K + 2 := ⟨N - 2, by omega⟩
  have h : (2 : Int) ^ (K + 2) = 4 * 2 ^ K := by ring
  rw [h]
  generalize (2 : Int) ^ K = y
  unfold wrap32
  omega

theorem intPow_one (n : Int) (h0 : 0 ≤ n) (hnmax : n < INT_MAX) : intPow n 1 = some 1 := by
  rw [intPow_eq n 1 h0 hnmax]
  simp [wrap32]

theorem brutLoop_two (n : Int) (hn : 2 ≤ n) (hnmax : n < INT_MAX) (fuel : Nat)
    (hf : 3 ≤ fuel) : brutLoop fuel n 2 1 = some (-1) := by
  obtain ⟨f, rfl⟩ : ∃ f, fuel = f + 3 := ⟨fuel - 3, by omega⟩
  have hw := wrap32_two_pow_ne_two n.toNat (by omega)
  have h2 : wrap32 (1 + 1) = 2 := by decide
  have h3 : wrap32 (2 + 1) = 3 := by decide
  simp only [brutLoop, intPow_one n (by omega) hnmax, intPow_eq n 2 (by omega) hnmax, h2, h3]
  simp [hw]

theorem optLoop_two (n : Int) (hn : 2 ≤ n) (hnmax : n < INT_MAX) (fuel : Nat)
    (hf : 3 ≤ fuel) : optLoop fuel n 2 1 2 = some (-1) := by
  obtain ⟨f, rfl⟩ : ∃ f, fuel = f + 3 := ⟨fuel - 3, by omega⟩
  have hw := wrap32_two_pow_ne_two n.toNat (by omega)
  have e1 : Int.tdiv (wrap32 (1 + 2)) 2 = 1 := by decide
  have e2 : wrap32 (1 + 1) = 2 := by decide
  have e3 : Int.tdiv (wrap32 (2 + 2)) 2 = 2 := by decide
  have e4 : wrap32 (2 + 1) = 3 := by decide
  have e5 : wrap32 (2 - 1) = 1 := by decide
  simp only [optLoop, e1, e2, e3, e4, e5, intPow_one n (by omega) hnmax,
    intPow_eq n 2 (by omega) hnmax]
  simp [hw]

theorem brutLoop_diverges (n m : Int) (hp : intPow n 1 = none) (hm : 1 ≤ m) (fuel : Nat) :
    brutLoop fuel n m 1 = none := by
  cases fuel with
  | zero => rfl
  | succ fuel =>
    unfold brutLoop
    rw [if_pos hm, hp]

theorem optLoop_two_diverges (n : Int) (hp : intPow n 1 = none) (fuel : Nat) :
    optLoop fuel n 2 1 2 = none := by
  cases fuel with
  | zero => rfl
  | succ fuel =>
    have e1 : Int.tdiv (wrap32 (1 + 2)) 2 = 1 := by decide
    unfold optLoop
    rw [if_pos (by decide)]
    simp only [e1, hp]

/-- A value other than `-1` returned by the binary search is a probe whose wrapped
power equals `m`. -/
theorem optLoop_match (n m r : Int) :
    ∀ (fuel : Nat) (low high : Int), optLoop fuel n m low high = some r →
      r = -1 ∨ intPow n r = some m := by
  intro fuel
  induction fuel with
  | zero => intro low high h; simp [optLoop] at h
  | succ fuel ih =>
    intro low high h
    unfold optLoop at h
    by_cases hlh : low ≤ high
    · rw [if_pos hlh] at h
      simp only [] at h
      cases hp : intPow n (Int.tdiv (wrap32 (low + high)) 2) with
      | none => rw [hp] at h; simp at h
      | some ans =>
        rw [hp] at h
        simp only [] at h
        by_cases heq : ans = m
        · rw [if_pos heq] at h
          right
          rw [← Option.some.inj h, ← heq]
          exact hp
        · rw [if_neg heq] at h
          by_cases hlt : ans < m
          · rw [if_pos hlt] at h; exact ih _ _ h
          · rw [if_neg hlt] at h; exact ih _ _ h
    · rw [if_neg hlh] at h
      left
      exact (Option.some.inj h).symm

/-- For a radicand below `2^30` the sum `low + high` cannot overflow, so every probe,
and hence every returned value other than `-1`, lies in `[1, m]`. -/
theorem optLoop_range (n m r : Int) (hm : m < 1073741824) :
    ∀ (fuel : Nat) (low high : Int), 1 ≤ low → high ≤ m →
      optLoop fuel n m low high = some r → r = -1 ∨ (1 ≤ r ∧ r ≤ m) := by
  intro fuel
  induction fuel with
  | zero => intro low high _ _ h; simp [optLoop] at h
  | succ fuel ih =>
    intro low high h1 h2 h
    unfold optLoop at h
    by_cases hlh : low ≤ high
    · rw [if_pos hlh, mid_eq low high (by omega) hlh (by omega)] at h
      have hm1 : low ≤ (low + high) / 2 := by omega
      have hm2 : (low + high) / 2 ≤ high := by omega
      generalize (low + high) / 2 = mid at h hm1 hm2
      simp only [] at h
      cases hp : intPow n mid with
      | none => rw [hp] at h; simp at h
      | some ans =>
        rw [hp] at h
        simp only [] at h
        by_cases heq : ans = m
        · rw [if_pos heq] at h
          right
          rw [← Option.some.inj h]
          omega
        · rw [if_neg heq] at h
          by_cases hlt : ans < m
          · rw [if_pos hlt, wrap32_eq_self (x := mid + 1) (by omega) (by omega)] at h
            exact ih _ _ (by omega) h2 h
          · rw [if_neg hlt, wrap32_eq_self (x := mid - 1) (by omega) (by omega)] at h
            exact ih _ _ h1 (by omega) h
    · rw [if_neg hlh] at h
      left
      exact (Option.some.inj h).symm

/-! ## Claims about the n-th root -/

section NthRootClaims

set_option maxRecDepth 100000

/-- C3. Round trip of the brute-force root: for all integers `n ≥ 1` and `r ≥ 1` with
`r ^ n ≤ 2^31 - 1`, `nthRootBrut(n, r ^ n)` returns `r`. -/
theorem nthRootBrut_round_trip (n r : Int) (hn : 1 ≤ n) (hr : 1 ≤ r)
    (hpow : r ^ n.toNat ≤ INT_MAX) : nthRootBrut n (r ^ n.toNat) = some r := by
  by_cases hguard : r ^ n.toNat = 0 ∨ n = 1 ∨ r ^ n.toNat = 1
  · unfold nthRootBrut
    rw [if_pos hguard]
    rcases hguard with h | h | h
    · have := pow_pos (show (0 : Int) < r by omega) n.toNat
      omega
    · subst h; simp
    · have hN : n.toNat ≠ 0 := by omega
      have := le_self_pow₀ hr hN
      have : r = 1 := by omega
      subst this; simp
  · push_neg at hguard
    have hn2 : 2 ≤ n := by omega
    have hN : 2 ≤ n.toNat := by omega
    have hr2 : 2 ≤ r := by
      by_contra hcon
      have : r = 1 := by omega
      subst this
      simp at hguard
    have hsmall := exponent_small r n.toNat hr2 hpow
    have hnmax : n < INT_MAX := by unfold INT_MAX; omega
    have hm : 2 ≤ r ^ n.toNat := le_trans hr2 (le_pow_self hr hN)
    exact (nthRootBrut_exact n (r ^ n.toNat) r hn2 hnmax hm hr (le_refl _) hpow).1 r hr rfl

/-- C3, witness: `nthRootBrut(2, 9) = 3`. -/
theorem nthRootBrut_round_trip_witness :
    (3 : Int) ^ (2 : Int).toNat = 9 ∧ nthRootBrut 2 ((3 : Int) ^ (2 : Int).toNat) = some 3 :=
  ⟨by decide, nthRootBrut_round_trip 2 3 (by decide) (by decide) (by decide)⟩

/-- C4, as stated, fails: `2 ^ 7 = 128` fits in an `int`, yet `nthRootOptimal(7, 128)`
returns `-1`, because the first probe `64 ^ 7 = 2 ^ 42` wraps to `0`. -/
theorem nthRootOptimal_round_trip_fails :
    (2 : Int) ^ (7 : Int).toNat ≤ INT_MAX ∧
    nthRootOptimal 7 ((2 : Int) ^ (7 : Int).toNat) = some (-1) ∧
    nthRootOptimal 7 ((2 : Int) ^ (7 : Int).toNat) ≠ some 2 := by
  refine ⟨by decide, by rfl, ?_⟩
  have h : nthRootOptimal 7 ((2 : Int) ^ (7 : Int).toNat) = some (-1) := by rfl
  rw [h]
  decide

/-- C4, amended. Round trip of the binary-search root when its first searchMid does
not overflow: for all integers `n ≥ 1` and `r ≥ 1` with `r ^ n ≤ 2^31 - 1` and
`((r ^ n + 1) / 2) ^ n ≤ 2^31 - 1`, `nthRootOptimal(n, r ^ n)` returns `r`
(32-bit wraparound arithmetic). -/
theorem nthRootOptimal_round_trip (n r : Int) (hn : 1 ≤ n) (hr : 1 ≤ r)
    (hpow : r ^ n.toNat ≤ INT_MAX)
    (hmid : ((r ^ n.toNat + 1) / 2) ^ n.toNat ≤ INT_MAX) :
    nthRootOptimal n (r ^ n.toNat) = some r := by
  by_cases hguard : r ^ n.toNat = 0 ∨ n = 1 ∨ r ^ n.toNat = 1
  · unfold nthRootOptimal
    rw [if_pos hguard]
    rcases hguard with h | h | h
    · have := pow_pos (show (0 : Int) < r by omega) n.toNat
      omega
    · subst h; simp
    · have hN : n.toNat ≠ 0 := by omega
      have := le_self_pow₀ hr hN
      have : r = 1 := by omega
      subst this; simp
  · push_neg at hguard
    have hn2 : 2 ≤ n := by omega
    have hN : 2 ≤ n.toNat := by omega
    have hr2 : 2 ≤ r := by
      by_contra hcon
      have : r = 1 := by omega
      subst this
      simp at hguard
    have hsmall := exponent_small r n.toNat hr2 hpow
    have hnmax : n < INT_MAX := by unfold INT_MAX; omega
    have h4 : r ^ 2 ≤ r ^ n.toNat := pow_le_pow_right₀ (by omega) hN
    have hm : 3 ≤ r ^ n.toNat := by nlinarith
    exact (nthRootOptimal_exact n (r ^ n.toNat) hn2 hnmax hm hmid).1 r hr rfl

/-- C4, amended, witness: `nthRootOptimal(2, 9) = 3`. -/
theorem nthRootOptimal_round_trip_witness :
    (3 : Int) ^ (2 : Int).toNat = 9 ∧
    nthRootOptimal 2 ((3 : Int) ^ (2 : Int).toNat) = some 3 :=
  ⟨by decide,
   nthRootOptimal_round_trip 2 3 (by decide) (by decide) (by decide) (by decide)⟩

/-- C5, as stated, fails: on `n = 7`, `m = 128` the brute-force root returns `2`
and the binary-search root returns `-1`. -/
theorem nthRoot_modes_disagree :
    nthRootBrut 7 128 = some 2 ∧ nthRootOptimal 7 128 = some (-1) ∧
    nthRootBrut 7 128 ≠ nthRootOptimal 7 128 := by
  have h1 : nthRootBrut 7 128 = some 2 := by rfl
  have h2 : nthRootOptimal 7 128 = some (-1) := by rfl
  refine ⟨h1, h2, ?_⟩
  rw [h1, h2]
  decide

/-- C5, amended. The two root algorithms agree whenever the first searchMid of the
binary search does not overflow: for all 32-bit `n ≥ 1` and `m ≥ 0` with
`((m + 1) / 2) ^ n ≤ 2^31 - 1`, `nthRootBrut(n, m) = nthRootOptimal(n, m)`
(32-bit wraparound arithmetic). -/
theorem nthRoot_modes_agree (n m : Int) (hn : 1 ≤ n) (hnmax : n ≤ INT_MAX) (hm : 0 ≤ m)
    (hmmax : m ≤ INT_MAX) (hmid : ((m + 1) / 2) ^ n.toNat ≤ INT_MAX) :
    nthRootBrut n m = nthRootOptimal n m := by
  by_cases hguard : m = 0 ∨ n = 1 ∨ m = 1
  · simp [nthRootBrut, nthRootOptimal, hguard]
  · have hn2 : 2 ≤ n := by omega
    have hm2 : 2 ≤ m := by omega
    have hN : 2 ≤ n.toNat := by omega
    rcases eq_or_lt_of_le hm2 with hm_eq | hm3
    · -- radicand 2: both loops probe 1 and 2 and find no match
      subst hm_eq
      unfold nthRootBrut nthRootOptimal
      rw [if_neg hguard, if_neg hguard]
      rcases eq_or_lt_of_le hnmax with hmax | hlt
      · subst hmax
        rw [brutLoop_diverges _ 2 (intPow_max 1) (by decide),
          optLoop_two_diverges _ (intPow_max 1)]
      · rw [brutLoop_two n hn2 hlt _ (by decide), optLoop_two n hn2 hlt _ (by decide)]
    · have hmid2 : 2 ≤ (m + 1) / 2 := by omega
      have hsmall := exponent_small _ n.toNat hmid2 hmid
      have hlt : n < INT_MAX := by unfold INT_MAX; omega
      have hge := first_mid_pow_ge m n.toNat (by omega) hN
      have hb := nthRootBrut_exact n m ((m + 1) / 2) hn2 hlt hm2 (by omega) hge hmid
      have ho := nthRootOptimal_exact n m hn2 hlt (by omega) hmid
      by_cases hex : ∃ r : Int, 1 ≤ r ∧ r ^ n.toNat = m
      · obtain ⟨r, hr1, hrm⟩ := hex
        rw [hb.1 r hr1 hrm, ho.1 r hr1 hrm]
      · push_neg at hex
        rw [hb.2 hex, ho.2 hex]

/-- C5, amended, witness: both modes return `-1` on `n = 3`, `m = 10`. -/
theorem nthRoot_modes_agree_witness :
    nthRootBrut 3 10 = nthRootOptimal 3 10 ∧ nthRootOptimal 3 10 = some (-1) :=
  ⟨nthRoot_modes_agree 3 10 (by decide) (by decide) (by decide) (by decide) (by decide),
   by rfl⟩

/-- C6, as stated, fails: `1870418611` has no exact 21st root (it lies strictly
between `2 ^ 21` and `3 ^ 21`), yet `nthRootBrut(21, 1870418611)` returns `3`,
because `3 ^ 21 = 10460353203` wraps to `1870418611`. -/
theorem nthRootBrut_false_match :
    isInt32 21 ∧ isInt32 1870418611 ∧
    (∀ r : Int, 1 ≤ r → r ≤ 1870418611 → r ^ (21 : Int).toNat ≠ 1870418611) ∧
    nthRootBrut 21 1870418611 = some 3 ∧ nthRootBrut 21 1870418611 ≠ some (-1) := by
  have h : nthRootBrut 21 1870418611 = some 3 := by rfl
  refine ⟨by decide, by decide, ?_, h, by rw [h]; decide⟩
  intro r h1 _ heq
  have hN : (21 : Int).toNat = 21 := rfl
  rw [hN] at heq
  rcases le_or_lt r 2 with hle | hgt
  · have := pow_le_pow_left₀ (show (0 : Int) ≤ r by omega) hle 21
    norm_num at this
    omega
  · have := pow_le_pow_left₀ (show (0 : Int) ≤ 3 by norm_num) (show 3 ≤ r by omega) 21
    norm_num at this
    omega

/-- C6, amended. NoExactRoot sentinel of the brute-force root when the deciding power
does not overflow: for all 32-bit `n ≥ 1` and `m ≥ 1`, if no integer `r` with
`1 ≤ r ≤ m` has `r ^ n = m`, and some integer `c ≥ 1` has `m < c ^ n ≤ 2^31 - 1`,
then `nthRootBrut(n, m)` returns `-1` (32-bit wraparound arithmetic). -/
theorem nthRootBrut_no_root (n m : Int) (hn : 1 ≤ n) (hnmax : n ≤ INT_MAX) (hm : 1 ≤ m)
    (hmmax : m ≤ INT_MAX) (hno : ∀ r : Int, 1 ≤ r → r ≤ m → r ^ n.toNat ≠ m)
    (hc : ∃ c : Int, 1 ≤ c ∧ m < c ^ n.toNat ∧ c ^ n.toNat ≤ INT_MAX) :
    nthRootBrut n m = some (-1) := by
  obtain ⟨c, hc1, hcm, hcmax⟩ := hc
  have hn2 : 2 ≤ n := by
    by_contra hcon
    have : n = 1 := by omega
    subst this
    exact hno m hm (le_refl _) (by simp)
  have hm2 : 2 ≤ m := by
    by_contra hcon
    have : m = 1 := by omega
    subst this
    exact hno 1 (le_refl _) (le_refl _) (by simp)
  have hN : 2 ≤ n.toNat := by omega
  have hc2 : 2 ≤ c := by
    by_contra hcon
    have : c = 1 := by omega
    subst this
    simp at hcm
    omega
  have hsmall := exponent_small c n.toNat hc2 hcmax
  have hlt : n < INT_MAX := by unfold INT_MAX; omega
  apply (nthRootBrut_exact n m c hn2 hlt hm2 hc1 (le_of_lt hcm) hcmax).2
  intro r hr
  rcases le_or_lt r m with hle | hgt
  · exact hno r hr hle
  · have := le_pow_self (a := r) (N := n.toNat) hr hN
    omega

/-- C6, amended, witnesses: `nthRootBrut(3, 10) = -1` and `nthRootBrut(3, 9) = -1`
(`2 ^ 3 = 8` and `3 ^ 3 = 27`). -/
theorem nthRootBrut_no_root_witness :
    nthRootBrut 3 10 = some (-1) ∧ nthRootBrut 3 9 = some (-1) := by
  have hN : (3 : Int).toNat = 3 := rfl
  constructor
  · apply nthRootBrut_no_root 3 10 (by decide) (by decide) (by decide) (by decide)
    · intro r h1 h2
      rw [hN]
      interval_cases r <;> norm_num
    · exact ⟨3, by decide, by decide, by decide⟩
  · apply nthRootBrut_no_root 3 9 (by decide) (by decide) (by decide) (by decide)
    · intro r h1 h2
      rw [hN]
      interval_cases r <;> norm_num
    · exact ⟨3, by decide, by decide, by decide⟩

/-- C7, as stated, fails: `nthRootOptimal(2, 131073)` returns `65537`, but
`65537 ^ 2 = 4295098369`, which is `131073` only after 32-bit wraparound. -/
theorem nthRootOptimal_false_match :
    isInt32 2 ∧ isInt32 131073 ∧
    nthRootOptimal 2 131073 = some 65537 ∧ (65537 : Int) ≠ -1 ∧
    (65537 : Int) ^ (2 : Int).toNat ≠ 131073 := by
  refine ⟨by decide, by decide, by rfl, by decide, by decide⟩

/-- C7, amended. For all 32-bit `n ≥ 2` and `m ≥ 2`, if `nthRootOptimal(n, m)` returns
a value `r` other than `-1`, then `r ^ n` equals `m` after 32-bit wraparound (modulo
`2^32`); if `m < 2^30` then `1 ≤ r ≤ m`; and if the first searchMid does not overflow,
`((m + 1) / 2) ^ n ≤ 2^31 - 1`, then `r ^ n = m` exactly. -/
theorem nthRootOptimal_match_sound (n m r : Int) (hn : 2 ≤ n) (hnmax : n ≤ INT_MAX)
    (hm : 2 ≤ m) (hmmax : m ≤ INT_MAX) (hres : nthRootOptimal n m = some r)
    (hr : r ≠ -1) :
    wrap32 (r ^ n.toNat) = m ∧
    (m < 2 ^ 30 → 1 ≤ r ∧ r ≤ m) ∧
    (((m + 1) / 2) ^ n.toNat ≤ INT_MAX → r ^ n.toNat = m) := by
  have hguard : ¬ (m = 0 ∨ n = 1 ∨ m = 1) := by omega
  have hN : 2 ≤ n.toNat := by omega
  have hloop : optLoop 18446744073709551617 n m 1 m = some r := by
    unfold nthRootOptimal at hres
    rw [if_neg hguard] at hres
    exact hres
  have hpw : intPow n r = some m := by
    rcases optLoop_match n m r _ _ _ hloop with h | h
    · exact absurd h hr
    · exact h
  have hlt : n < INT_MAX := by
    rcases eq_or_lt_of_le hnmax with heq | hlt
    · subst heq
      rw [intPow_max] at hpw
      exact absurd hpw (by simp)
    · exact hlt
  refine ⟨?_, ?_, ?_⟩
  · rw [intPow_eq n r (by omega) hlt] at hpw
    exact Option.some.inj hpw
  · intro hsmall
    rcases optLoop_range n m r (by norm_num at hsmall; exact hsmall) _ 1 m (le_refl _)
      (le_refl _) hloop with h | h
    · exact absurd h hr
    · exact h
  · intro hmid
    rcases eq_or_lt_of_le hm with hm_eq | hm3
    · subst hm_eq
      rw [optLoop_two n hn hlt _ (by decide)] at hloop
      exact absurd (Option.some.inj hloop).symm hr
    · have ho := nthRootOptimal_exact n m hn hlt (by omega) hmid
      by_cases hex : ∃ q : Int, 1 ≤ q ∧ q ^ n.toNat = m
      · obtain ⟨q, hq1, hqm⟩ := hex
        have hq := ho.1 q hq1 hqm
        rw [hres] at hq
        have hrq : r = q := Option.some.inj hq
        subst hrq
        exact hqm
      · push_neg at hex
        have hq := ho.2 hex
        rw [hres] at hq
        exact absurd (Option.some.inj hq) hr

/-- C7, amended, witness: `nthRootOptimal(2, 9)` returns `3`, with `1 ≤ 3 ≤ 9` and
`3 ^ 2 = 9`. -/
theorem nthRootOptimal_match_sound_witness :
    nthRootOptimal 2 9 = some 3 ∧ wrap32 ((3 : Int) ^ (2 : Int).toNat) = 9 ∧
    ((1 : Int) ≤ 3 ∧ (3 : Int) ≤ 9) ∧ (3 : Int) ^ (2 : Int).toNat = 9 :=
  ⟨by rfl,
   (nthRootOptimal_match_sound 2 9 3 (by decide) (by decide) (by decide) (by decide)
     (by rfl) (by decide)).1,
   (nthRootOptimal_match_sound 2 9 3 (by decide) (by decide) (by decide) (by decide)
     (by rfl) (by decide)).2.1 (by decide),
   (nthRootOptimal_match_sound 2 9 3 (by decide) (by decide) (by decide) (by decide)
     (by rfl) (by decide)).2.2 (by decide)⟩

/-- C8. Degenerate inputs return the radicand: for all ints `n` and `m`, if `m = 0` or
`n = 1` or `m = 1`, then `nthRootBrut(n, m) = m` and `nthRootOptimal(n, m) = m`. -/
theorem nthRoot_degenerate (n m : Int) (h : m = 0 ∨ n = 1 ∨ m = 1) :
    nthRootBrut n m = some m ∧ nthRootOptimal n m = some m := by
  unfold nthRootBrut nthRootOptimal
  rw [if_pos h, if_pos h]
  exact ⟨rfl, rfl⟩

/-- C8, witnesses: `nthRoot(5, 0) = 0`, `nthRoot(1, 7) = 7`, `nthRoot(4, 1) = 1`, in
both modes. -/
theorem nthRoot_degenerate_witness :
    (nthRootBrut 5 0 = some 0 ∧ nthRootOptimal 5 0 = some 0) ∧
    (nthRootBrut 1 7 = some 7 ∧ nthRootOptimal 1 7 = some 7) ∧
    (nthRootBrut 4 1 = some 1 ∧ nthRootOptimal 4 1 = some 1) :=
  ⟨nthRoot_degenerate 5 0 (by decide), nthRoot_degenerate 1 7 (by decide),
   nthRoot_degenerate 4 1 (by decide)⟩

end NthRootClaims

/-! ## Rotation invariance and single-element vectors -/

/-- C9, as stated, fails for the distinct-element `findMin`: on the non-decreasing
`S = [0,1,1,1,1]` it returns `0` for the offset `0` and `1` for the offset `4`
(the vector `[1,0,1,1,1]`). -/
theorem findMinDistinct_rotation_dependent :
    ([0, 1, 1, 1, 1] : List Int).Pairwise (· ≤ ·) ∧
    4 < ([0, 1, 1, 1, 1] : List Int).length ∧
    rotate [0, 1, 1, 1, 1] 0 = [0, 1, 1, 1, 1] ∧
    rotate [0, 1, 1, 1, 1] 4 = [1, 0, 1, 1, 1] ∧
    FindMinimumRotatedSortedArray.findMin (rotate [0, 1, 1, 1, 1] 0) = some 0 ∧
    FindMinimumRotatedSortedArray.findMin (rotate [0, 1, 1, 1, 1] 4) = some 1 := by
  decide

/-- C9, amended. For every non-empty non-decreasing sequence `S` of 32-bit integers
(of length below `2^30`) and all offsets `j, k < |S|`, the duplicate-tolerant `findMin`
returns the same value on `rotate S j` and `rotate S k`; the distinct-element
`findMin` does so when `S` has no repeated value (is strictly ascending). -/
theorem findMin_rotation_invariant (S : List Int) (j k : Nat)
    (hsorted : S.Pairwise (· ≤ ·)) (hint : ∀ x ∈ S, isInt32 x)
    (hlen : S.length < 2 ^ 30) (hj : j < S.length) (hk : k < S.length) :
    FindMinimumRotatedSortedArrayII.findMin (rotate S j)
      = FindMinimumRotatedSortedArrayII.findMin (rotate S k) ∧
    (S.Pairwise (· < ·) →
      FindMinimumRotatedSortedArray.findMin (rotate S j)
        = FindMinimumRotatedSortedArray.findMin (rotate S k)) := by
  constructor
  · rw [findMinDup_rotate S j hsorted hint (le_of_lt hlen) hj,
      findMinDup_rotate S k hsorted hint (le_of_lt hlen) hk]
  · intro hstrict
    rw [findMinDistinct_rotate S j hstrict hint (le_of_lt hlen) hj,
      findMinDistinct_rotate S k hstrict hint (le_of_lt hlen) hk]

/-- C9, amended, witness: the offsets `2` and `5` of `[0,1,2,3,4,5,6,7]` for both
variants. -/
theorem findMin_rotation_invariant_witness :
    FindMinimumRotatedSortedArrayII.findMin (rotate [0, 1, 2, 3, 4, 5, 6, 7] 2)
      = FindMinimumRotatedSortedArrayII.findMin (rotate [0, 1, 2, 3, 4, 5, 6, 7] 5) ∧
    FindMinimumRotatedSortedArray.findMin (rotate [0, 1, 2, 3, 4, 5, 6, 7] 2)
      = FindMinimumRotatedSortedArray.findMin (rotate [0, 1, 2, 3, 4, 5, 6, 7] 5) :=
  ⟨(findMin_rotation_invariant [0, 1, 2, 3, 4, 5, 6, 7] 2 5 (by decide) (by decide)
      (by decide) (by decide) (by decide)).1,
   (findMin_rotation_invariant [0, 1, 2, 3, 4, 5, 6, 7] 2 5 (by decide) (by decide)
      (by decide) (by decide) (by decide)).2 (by decide)⟩

/-- C10. Single-element input: for every 32-bit `x` (including `x = INT_MAX`, the
initial value of the accumulator), `findMin([x]) = x` for the distinct-element
`findMin` and for the duplicate-tolerant `findMin`. -/
theorem findMin_singleton (x : Int) (hx : isInt32 x) :
    FindMinimumRotatedSortedArray.findMin [x] = some x ∧
    FindMinimumRotatedSortedArrayII.findMin [x] = some x := by
  have hrot : rotate [x] 0 = [x] := by simp [rotate]
  have hint : ∀ y ∈ [x], isInt32 y := by
    intro y hy
    rw [List.mem_singleton] at hy
    rw [hy]; exact hx
  have hlen : [x].length ≤ 2 ^ 30 := by
    rw [List.length_singleton]; norm_num
  have hk : 0 < [x].length := by simp
  have hmin : [x].min? = some x := by simp
  have h1 := findMinDistinct_rotate [x] 0
    (List.pairwise_singleton _ x) hint hlen hk
  have h2 := findMinDup_rotate [x] 0
    (List.pairwise_singleton _ x) hint hlen hk
  rw [hrot, hmin] at h1 h2
  exact ⟨h1, h2⟩

/-- C10, witness: `findMin([1]) = 1` (the demo of the second file) and
`findMin([INT_MAX]) = INT_MAX`. -/
theorem findMin_singleton_witness :
    (FindMinimumRotatedSortedArray.findMin [1] = some 1 ∧
      FindMinimumRotatedSortedArrayII.findMin [1] = some 1) ∧
    (FindMinimumRotatedSortedArray.findMin [INT_MAX] = some INT_MAX ∧
      FindMinimumRotatedSortedArrayII.findMin [INT_MAX] = some INT_MAX) :=
  ⟨findMin_singleton 1 (by decide), findMin_singleton INT_MAX (by decide)⟩

/-! ## The loops as iterated rounds -/

theorem findMinDistinctLoop_step (fuel : Nat) (nums : List Int) (low high ans : Int) :
    FindMinimumRotatedSortedArray.findMinLoop (fuel + 1) nums low high ans =
      match FindMinimumRotatedSortedArray.findMinStep nums ⟨low, high, ans⟩ with
      | .exit v => some v
      | .next t => FindMinimumRotatedSortedArray.findMinLoop fuel nums t.low t.high t.ans
      | .outOfRange => none := by
  simp only [FindMinimumRotatedSortedArray.findMinLoop,
    FindMinimumRotatedSortedArray.findMinStep, searchMid]
  split_ifs with h
  · cases vecGet nums low <;> cases vecGet nums high <;>
      cases vecGet nums (Int.tdiv (wrap32 (low + high)) 2) <;>
      first
        | rfl
        | (simp only []; split_ifs <;> rfl)
  · rfl

theorem findMinDupLoop_step (fuel : Nat) (nums : List Int) (low high ans : Int) :
    FindMinimumRotatedSortedArrayII.findMinLoop (fuel + 1) nums low high ans =
      match FindMinimumRotatedSortedArrayII.findMinStep nums ⟨low, high, ans⟩ with
      | .exit v => some v
      | .next t => FindMinimumRotatedSortedArrayII.findMinLoop fuel nums t.low t.high t.ans
      | .outOfRange => none := by
  simp only [FindMinimumRotatedSortedArrayII.findMinLoop,
    FindMinimumRotatedSortedArrayII.findMinStep, searchMid]
  split_ifs with h
  · cases vecGet nums low <;> cases vecGet nums high <;>
      cases vecGet nums (Int.tdiv (wrap32 (low + high)) 2) <;>
      first
        | rfl
        | (simp only []; split_ifs <;> rfl)
  · rfl

theorem optLoop_step (fuel : Nat) (n m low high : Int) :
    optLoop (fuel + 1) n m low high =
      match optStep n m ⟨low, high⟩ with
      | .found r => some r
      | .notFound => some (-1)
      | .next t => optLoop fuel n m t.low t.high
      | .diverges => none := by
  simp only [optLoop, optStep, searchMid]
  split_ifs with h
  · cases intPow n (Int.tdiv (wrap32 (low + high)) 2) <;>
      first
        | rfl
        | (simp only []; split_ifs <;> rfl)
  · rfl

/-- A loop that is the iteration of `step` ends with a value satisfying `Post`,
provided an invariant is kept by every round, every round shrinks `high - low`,
and the fuel exceeds the width of the range. -/
theorem search_run {loop : Nat → Int → Int → Int → Option Int}
    {step : SearchState → StepResult}
    (hlink : ∀ fuel low high ans, loop (fuel + 1) low high ans =
      match step ⟨low, high, ans⟩ with
      | .exit v => some v
      | .next t => loop fuel t.low t.high t.ans
      | .outOfRange => none)
    (Inv : SearchState → Prop) (Post : Int → Prop)
    (hnext : ∀ s, Inv s → s.low ≤ s.high →
      ∃ t, step s = .next t ∧ Inv t ∧ t.high - t.low < s.high - s.low)
    (hexit : ∀ s, Inv s → ¬ s.low ≤ s.high → step s = .exit s.ans ∧ Post s.ans) :
    ∀ (fuel : Nat) (s : SearchState), Inv s → s.high - s.low + 1 < fuel → 0 < fuel →
      ∃ v, loop fuel s.low s.high s.ans = some v ∧ Post v := by
  intro fuel
  induction fuel with
  | zero => intro s _ _ h; omega
  | succ fuel ih =>
    intro s hinv hf _
    rw [hlink]
    by_cases hlh : s.low ≤ s.high
    · obtain ⟨t, ht, hinvt, hw⟩ := hnext s hinv hlh
      rw [ht]
      exact ih t hinvt (by omega) (by omega)
    · obtain ⟨he, hp⟩ := hexit s hinv hlh
      rw [he]
      exact ⟨s.ans, rfl, hp⟩

/-- The probe of a non-empty index range with `high` below `2^30` is the exact floor
average. -/
theorem searchMid_eq (low high : Int) (h0 : 0 ≤ low) (hlh : low ≤ high)
    (hh : high < 1073741824) : searchMid low high = (low + high) / 2 :=
  mid_eq low high h0 hlh hh

/-- One round of the distinct-element loop on an in-range state: the probe lies in
`[low, high]`, no access leaves the vector, and the round goes on with one of
`low = mid + 1`, `high = mid - 1`. -/
theorem findMinDistinctStep_next (nums : List Int) (hlen : (nums.length : Int) ≤ 1073741824)
    (s : SearchState) (h0 : 0 ≤ s.low) (h1 : s.high < nums.length) (hlh : s.low ≤ s.high) :
    ∃ t, FindMinimumRotatedSortedArray.findMinStep nums s = .next t ∧
      ((t.low = searchMid s.low s.high + 1 ∧ t.high = s.high ∧
          t.ans = min (if valAt nums s.low ≤ valAt nums s.high
            then min s.ans (valAt nums s.low) else s.ans) (valAt nums s.low) ∧
          valAt nums s.low ≤ valAt nums (searchMid s.low s.high)) ∨
       (t.low = s.low ∧ t.high = searchMid s.low s.high - 1 ∧
          t.ans = min (if valAt nums s.low ≤ valAt nums s.high
            then min s.ans (valAt nums s.low) else s.ans)
              (valAt nums (searchMid s.low s.high)) ∧
          ¬ valAt nums s.low ≤ valAt nums (searchMid s.low s.high))) := by
  have hmid := searchMid_eq s.low s.high h0 hlh (by omega)
  have hm1 : s.low ≤ (s.low + s.high) / 2 := by omega
  have hm2 : (s.low + s.high) / 2 ≤ s.high := by omega
  unfold FindMinimumRotatedSortedArray.findMinStep
  rw [if_pos hlh]
  simp only []
  rw [hmid]
  generalize (s.low + s.high) / 2 = mid at hm1 hm2
  rw [vecGet_eq_valAt nums s.low h0 (by omega), vecGet_eq_valAt nums s.high (by omega) h1,
    vecGet_eq_valAt nums mid (by omega) (by omega)]
  simp only []
  rw [wrap32_eq_self (x := mid + 1) (by omega) (by omega),
    wrap32_eq_self (x := mid - 1) (by omega) (by omega)]
  by_cases hac : valAt nums s.low ≤ valAt nums mid
  · rw [if_pos hac]
    exact ⟨_, rfl, Or.inl ⟨rfl, rfl, rfl, hac⟩⟩
  · rw [if_neg hac]
    exact ⟨_, rfl, Or.inr ⟨rfl, rfl, rfl, hac⟩⟩

/-- One round of the duplicate-tolerant loop on an in-range state: as for the first
variant, with the two-sided shrink `low++, high--` as a third possibility. -/
theorem findMinDupStep_next (nums : List Int) (hlen : (nums.length : Int) ≤ 1073741824)
    (s : SearchState) (h0 : 0 ≤ s.low) (h1 : s.high < nums.length) (hlh : s.low ≤ s.high) :
    ∃ t, FindMinimumRotatedSortedArrayII.findMinStep nums s = .next t ∧
      ((t.low = s.low + 1 ∧ t.high = s.high - 1 ∧ t.ans = min s.ans (valAt nums s.low)) ∨
       (t.low = searchMid s.low s.high + 1 ∧ t.high = s.high ∧
          t.ans = min (if valAt nums s.low ≤ valAt nums s.high
            then min s.ans (valAt nums s.low) else s.ans) (valAt nums s.low) ∧
          valAt nums s.low ≤ valAt nums (searchMid s.low s.high)) ∨
       (t.low = s.low ∧ t.high = searchMid s.low s.high - 1 ∧
          t.ans = min (if valAt nums s.low ≤ valAt nums s.high
            then min s.ans (valAt nums s.low) else s.ans)
              (valAt nums (searchMid s.low s.high)) ∧
          ¬ valAt nums s.low ≤ valAt nums (searchMid s.low s.high))) := by
  have hmid := searchMid_eq s.low s.high h0 hlh (by omega)
  have hm1 : s.low ≤ (s.low + s.high) / 2 := by omega
  have hm2 : (s.low + s.high) / 2 ≤ s.high := by omega
  unfold FindMinimumRotatedSortedArrayII.findMinStep
  rw [if_pos hlh]
  simp only []
  rw [hmid]
  generalize (s.low + s.high) / 2 = mid at hm1 hm2
  rw [vecGet_eq_valAt nums s.low h0 (by omega), vecGet_eq_valAt nums s.high (by omega) h1,
    vecGet_eq_valAt nums mid (by omega) (by omega)]
  simp only []
  rw [wrap32_eq_self (x := mid + 1) (by omega) (by omega),
    wrap32_eq_self (x := mid - 1) (by omega) (by omega),
    wrap32_eq_self (x := s.low + 1) (by omega) (by omega),
    wrap32_eq_self (x := s.high - 1) (by omega) (by omega)]
  by_cases heq3 : valAt nums mid = valAt nums s.low ∧ valAt nums mid = valAt nums s.high
  · rw [if_pos heq3]
    exact ⟨_, rfl, Or.inl ⟨rfl, rfl, rfl⟩⟩
  · rw [if_neg heq3]
    by_cases hac : valAt nums s.low ≤ valAt nums mid
    · rw [if_pos hac]
      exact ⟨_, rfl, Or.inr (Or.inl ⟨rfl, rfl, rfl, hac⟩)⟩
    · rw [if_neg hac]
      exact ⟨_, rfl, Or.inr (Or.inr ⟨rfl, rfl, rfl, hac⟩)⟩

theorem findMinDistinctStep_exit (nums : List Int) (s : SearchState) (hlh : ¬ s.low ≤ s.high) :
    FindMinimumRotatedSortedArray.findMinStep nums s = .exit s.ans := by
  unfold FindMinimumRotatedSortedArray.findMinStep
  rw [if_neg hlh]

theorem findMinDupStep_exit (nums : List Int) (s : SearchState) (hlh : ¬ s.low ≤ s.high) :
    FindMinimumRotatedSortedArrayII.findMinStep nums s = .exit s.ans := by
  unfold FindMinimumRotatedSortedArrayII.findMinStep
  rw [if_neg hlh]

/-! ## Reachable states stay inside the vector -/

theorem findMinDistinct_stateAt_bounds (nums : List Int)
    (hlen : (nums.length : Int) ≤ 1073741824) :
    ∀ (k : Nat) (s : SearchState), FindMinimumRotatedSortedArray.stateAt nums k = some s →
      0 ≤ s.low ∧ s.high < nums.length := by
  intro k
  induction k with
  | zero =>
    intro s h
    simp only [FindMinimumRotatedSortedArray.stateAt, Option.some.injEq] at h
    subst h
    simp only [wrap32]
    omega
  | succ k ih =>
    intro s h
    rw [FindMinimumRotatedSortedArray.stateAt] at h
    cases hk : FindMinimumRotatedSortedArray.stateAt nums k with
    | none => rw [hk] at h; simp at h
    | some s0 =>
      rw [hk] at h
      simp only [] at h
      obtain ⟨h0, h1⟩ := ih s0 hk
      by_cases hlh : s0.low ≤ s0.high
      · obtain ⟨t, ht, hcases⟩ := findMinDistinctStep_next nums hlen s0 h0 h1 hlh
        rw [ht] at h
        simp only [Option.some.injEq] at h
        subst h
        have hmid := searchMid_eq s0.low s0.high h0 hlh (by omega)
        rcases hcases with ⟨e1, e2, _, _⟩ | ⟨e1, e2, _, _⟩ <;> omega
      · rw [findMinDistinctStep_exit nums s0 hlh] at h
        simp at h

theorem findMinDup_stateAt_bounds (nums : List Int)
    (hlen : (nums.length : Int) ≤ 1073741824) :
    ∀ (k : Nat) (s : SearchState), FindMinimumRotatedSortedArrayII.stateAt nums k = some s →
      0 ≤ s.low ∧ s.high < nums.length := by
  intro k
  induction k with
  | zero =>
    intro s h
    simp only [FindMinimumRotatedSortedArrayII.stateAt, Option.some.injEq] at h
    subst h
    simp only [wrap32]
    omega
  | succ k ih =>
    intro s h
    rw [FindMinimumRotatedSortedArrayII.stateAt] at h
    cases hk : FindMinimumRotatedSortedArrayII.stateAt nums k with
    | none => rw [hk] at h; simp at h
    | some s0 =>
      rw [hk] at h
      simp only [] at h
      obtain ⟨h0, h1⟩ := ih s0 hk
      by_cases hlh : s0.low ≤ s0.high
      · obtain ⟨t, ht, hcases⟩ := findMinDupStep_next nums hlen s0 h0 h1 hlh
        rw [ht] at h
        simp only [Option.some.injEq] at h
        subst h
        have hmid := searchMid_eq s0.low s0.high h0 hlh (by omega)
        rcases hcases with ⟨e1, e2, _⟩ | ⟨e1, e2, _, _⟩ | ⟨e1, e2, _, _⟩ <;> omega
      · rw [findMinDupStep_exit nums s0 hlh] at h
        simp at h

/-- Every run of the distinct-element `findMin` on a vector with at most `2^30`
elements returns a value. -/
theorem findMinDistinct_returns (nums : List Int) (hlen : (nums.length : Int) ≤ 1073741824) :
    ∃ v, FindMinimumRotatedSortedArray.findMin nums = some v := by
  have hrun := @search_run
    (fun fuel => FindMinimumRotatedSortedArray.findMinLoop fuel nums)
    (FindMinimumRotatedSortedArray.findMinStep nums)
    (fun fuel low high ans => findMinDistinctLoop_step fuel nums low high ans)
    (fun s => 0 ≤ s.low ∧ s.high < nums.length) (fun _ => True)
    (fun s hinv hlh => by
      obtain ⟨t, ht, hcases⟩ := findMinDistinctStep_next nums hlen s hinv.1 hinv.2 hlh
      have hmid := searchMid_eq s.low s.high hinv.1 hlh (by omega)
      refine ⟨t, ht, ?_⟩
      rcases hcases with ⟨e1, e2, _, _⟩ | ⟨e1, e2, _, _⟩ <;> omega)
    (fun s _ hlh => ⟨findMinDistinctStep_exit nums s hlh, trivial⟩)
    (nums.length + 1) ⟨0, wrap32 ((nums.length : Int) - 1), INT_MAX⟩
    (by simp only [wrap32]; omega) (by simp only [wrap32]; push_cast; omega) (by omega)
  obtain ⟨v, hv, _⟩ := hrun
  exact ⟨v, hv⟩

/-- Every run of the duplicate-tolerant `findMin` on a vector with at most `2^30`
elements returns a value. -/
theorem findMinDup_returns (nums : List Int) (hlen : (nums.length : Int) ≤ 1073741824) :
    ∃ v, FindMinimumRotatedSortedArrayII.findMin nums = some v := by
  have hrun := @search_run
    (fun fuel => FindMinimumRotatedSortedArrayII.findMinLoop fuel nums)
    (FindMinimumRotatedSortedArrayII.findMinStep nums)
    (fun fuel low high ans => findMinDupLoop_step fuel nums low high ans)
    (fun s => 0 ≤ s.low ∧ s.high < nums.length) (fun _ => True)
    (fun s hinv hlh => by
      obtain ⟨t, ht, hcases⟩ := findMinDupStep_next nums hlen s hinv.1 hinv.2 hlh
      have hmid := searchMid_eq s.low s.high hinv.1 hlh (by omega)
      refine ⟨t, ht, ?_⟩
      rcases hcases with ⟨e1, e2, _⟩ | ⟨e1, e2, _, _⟩ | ⟨e1, e2, _, _⟩ <;> omega)
    (fun s _ hlh => ⟨findMinDupStep_exit nums s hlh, trivial⟩)
    (nums.length + 1) ⟨0, wrap32 ((nums.length : Int) - 1), INT_MAX⟩
    (by simp only [wrap32]; omega) (by simp only [wrap32]; push_cast; omega) (by omega)
  obtain ⟨v, hv, _⟩ := hrun
  exact ⟨v, hv⟩

/-! ## Termination, index safety and the empty vector -/

/-- C11. Duplicates can defeat the distinct-element algorithm: for the non-decreasing
`S = [0,1,1,1,1]`, which repeats the value `1`, and the offset `k = 4`, the
distinct-element `findMin` applied to `rotate S k = [1,0,1,1,1]` returns the value
`1`, which differs from the minimum `0` of `S`, while the duplicate-tolerant
`findMin` returns `0` on that same input. -/
theorem duplicates_defeat_findMinDistinct :
    ∃ (S : List Int) (k : Nat) (v m : Int), S ≠ [] ∧ S.Pairwise (· ≤ ·) ∧ ¬ S.Nodup ∧
      k < S.length ∧ S.min? = some m ∧
      FindMinimumRotatedSortedArray.findMin (rotate S k) = some v ∧ v ≠ m ∧
      FindMinimumRotatedSortedArrayII.findMin (rotate S k) = some m :=
  ⟨[0, 1, 1, 1, 1], 4, 1, 0, by decide, by decide, by decide, by decide, by decide,
    by decide, by decide, by decide⟩

/-- C12. Both `findMin` loops terminate on every input vector of length below `2^30`
(sorted, rotated or arbitrary): the call returns a value, and in every round that
the run reaches, `low ≤ mid ≤ high` and the round goes on with a range whose width
`high - low + 1` is strictly smaller, whichever of `low = mid + 1`, `high = mid - 1`
or (second variant) `low++, high--` it takes. -/
theorem findMin_loops_terminate (nums : List Int) (hlen : nums.length < 2 ^ 30) :
    ((∃ v, FindMinimumRotatedSortedArray.findMin nums = some v) ∧
      ∀ (k : Nat) (s : SearchState),
        FindMinimumRotatedSortedArray.stateAt nums k = some s → s.low ≤ s.high →
        s.low ≤ searchMid s.low s.high ∧ searchMid s.low s.high ≤ s.high ∧
        ∃ t, FindMinimumRotatedSortedArray.findMinStep nums s = .next t ∧
          t.high - t.low + 1 < s.high - s.low + 1) ∧
    ((∃ v, FindMinimumRotatedSortedArrayII.findMin nums = some v) ∧
      ∀ (k : Nat) (s : SearchState),
        FindMinimumRotatedSortedArrayII.stateAt nums k = some s → s.low ≤ s.high →
        s.low ≤ searchMid s.low s.high ∧ searchMid s.low s.high ≤ s.high ∧
        ∃ t, FindMinimumRotatedSortedArrayII.findMinStep nums s = .next t ∧
          t.high - t.low + 1 < s.high - s.low + 1) := by
  have hlen2 : (nums.length : Int) ≤ 1073741824 := by
    norm_num at hlen
    have hlt : (nums.length : Int) < 1073741824 := by exact_mod_cast hlen
    omega
  refine ⟨⟨findMinDistinct_returns nums hlen2, ?_⟩, ⟨findMinDup_returns nums hlen2, ?_⟩⟩
  · intro k s hs hlh
    obtain ⟨h0, h1⟩ := findMinDistinct_stateAt_bounds nums hlen2 k s hs
    have hmid := searchMid_eq s.low s.high h0 hlh (by omega)
    obtain ⟨t, ht, hcases⟩ := findMinDistinctStep_next nums hlen2 s h0 h1 hlh
    refine ⟨by omega, by omega, t, ht, ?_⟩
    rcases hcases with ⟨e1, e2, _, _⟩ | ⟨e1, e2, _, _⟩ <;> omega
  · intro k s hs hlh
    obtain ⟨h0, h1⟩ := findMinDup_stateAt_bounds nums hlen2 k s hs
    have hmid := searchMid_eq s.low s.high h0 hlh (by omega)
    obtain ⟨t, ht, hcases⟩ := findMinDupStep_next nums hlen2 s h0 h1 hlh
    refine ⟨by omega, by omega, t, ht, ?_⟩
    rcases hcases with ⟨e1, e2, _⟩ | ⟨e1, e2, _, _⟩ | ⟨e1, e2, _, _⟩ <;> omega

/-- C12, witness: the arbitrary vector `[3,1,2]`; both calls return, and round 0
starts with `low = 0`, `high = 2`. -/
theorem findMin_loops_terminate_witness :
    FindMinimumRotatedSortedArray.stateAt [3, 1, 2] 0 = some ⟨0, 2, INT_MAX⟩ ∧
    ((∃ v, FindMinimumRotatedSortedArray.findMin [3, 1, 2] = some v) ∧
      ∀ (k : Nat) (s : SearchState),
        FindMinimumRotatedSortedArray.stateAt [3, 1, 2] k = some s → s.low ≤ s.high →
        s.low ≤ searchMid s.low s.high ∧ searchMid s.low s.high ≤ s.high ∧
        ∃ t, FindMinimumRotatedSortedArray.findMinStep [3, 1, 2] s = .next t ∧
          t.high - t.low + 1 < s.high - s.low + 1) ∧
    ((∃ v, FindMinimumRotatedSortedArrayII.findMin [3, 1, 2] = some v) ∧
      ∀ (k : Nat) (s : SearchState),
        FindMinimumRotatedSortedArrayII.stateAt [3, 1, 2] k = some s → s.low ≤ s.high →
        s.low ≤ searchMid s.low s.high ∧ searchMid s.low s.high ≤ s.high ∧
        ∃ t, FindMinimumRotatedSortedArrayII.findMinStep [3, 1, 2] s = .next t ∧
          t.high - t.low + 1 < s.high - s.low + 1) :=
  ⟨by decide, findMin_loops_terminate [3, 1, 2] (by decide)⟩

theorem optStep_next_bounds (n m : Int) (hm : m < 1073741824) (s t : RootRange)
    (h1 : 1 ≤ s.low) (h2 : s.high ≤ m) (h : optStep n m s = .next t) :
    1 ≤ t.low ∧ t.high ≤ m := by
  unfold optStep at h
  by_cases hlh : s.low ≤ s.high
  · rw [if_pos hlh] at h
    simp only [] at h
    rw [searchMid_eq s.low s.high (by omega) hlh (by omega)] at h
    have hm1 : s.low ≤ (s.low + s.high) / 2 := by omega
    have hm2 : (s.low + s.high) / 2 ≤ s.high := by omega
    generalize (s.low + s.high) / 2 = mid at h hm1 hm2
    rw [wrap32_eq_self (x := mid + 1) (by omega) (by omega),
      wrap32_eq_self (x := mid - 1) (by omega) (by omega)] at h
    cases hp : intPow n mid with
    | none => rw [hp] at h; simp at h
    | some ans =>
      rw [hp] at h
      simp only [] at h
      by_cases heq : ans = m
      · rw [if_pos heq] at h; simp at h
      · rw [if_neg heq] at h
        by_cases hlt : ans < m
        · rw [if_pos hlt] at h
          simp only [RootStep.next.injEq] at h
          subst h
          exact ⟨by show 1 ≤ mid + 1; omega, h2⟩
        · rw [if_neg hlt] at h
          simp only [RootStep.next.injEq] at h
          subst h
          exact ⟨h1, by show mid - 1 ≤ m; omega⟩
  · rw [if_neg hlh] at h
    simp at h

theorem optStateAt_bounds (n m : Int) (hm : m < 1073741824) :
    ∀ (k : Nat) (s : RootRange), optStateAt n m k = some s → 1 ≤ s.low ∧ s.high ≤ m := by
  intro k
  induction k with
  | zero =>
    intro s h
    simp only [optStateAt] at h
    split_ifs at h
    simp only [Option.some.injEq] at h
    subst h
    exact ⟨le_refl _, le_refl _⟩
  | succ k ih =>
    intro s h
    rw [optStateAt] at h
    cases hk : optStateAt n m k with
    | none => rw [hk] at h; simp at h
    | some s0 =>
      rw [hk] at h
      simp only [] at h
      obtain ⟨h1, h2⟩ := ih s0 hk
      cases hst : optStep n m s0 with
      | next t =>
        rw [hst] at h
        simp only [Option.some.injEq] at h
        subst h
        exact optStep_next_bounds n m hm s0 t h1 h2 hst
      | found r => rw [hst] at h; simp at h
      | notFound => rw [hst] at h; simp at h
      | diverges => rw [hst] at h; simp at h

section RangeClaims

set_option maxRecDepth 100000

/-- C13, as stated, fails: for `n = 2`, `m = 2^31 - 1` the very first sum
`low + high = 1 + 2147483647` wraps to `-2^31`, so `mid = -2^30 < low`; and for
`n = 3`, `m = 2^30` round 30 starts with `low = high = 2^30`, whose sum wraps as
well, so the probe is again `-2^30`. -/
theorem nthRootOptimal_probe_leaves_range :
    (optStateAt 2 2147483647 0 = some ⟨1, 2147483647⟩ ∧
      searchMid 1 2147483647 = -1073741824 ∧ ¬ (1 : Int) ≤ searchMid 1 2147483647) ∧
    (optStateAt 3 1073741824 30 = some ⟨1073741824, 1073741824⟩ ∧
      searchMid 1073741824 1073741824 = -1073741824 ∧
      ¬ (1073741824 : Int) ≤ searchMid 1073741824 1073741824) := by
  refine ⟨⟨by rfl, by decide, by decide⟩, ⟨by rfl, by decide, by decide⟩⟩

end RangeClaims

/-- C13, amended. The binary-search root keeps its probe inside the search range for
radicands below `2^30`: for every `n` and every `m < 2^30` (in particular 32-bit
`n ≥ 2` and `2 ≤ m < 2^30`), every round that `nthRootOptimal(n, m)` reaches has
`1 ≤ low ≤ mid ≤ high ≤ m`, with `low + high` evaluated in 32-bit wraparound
arithmetic. -/
theorem nthRootOptimal_probe_in_range (n m : Int) (hm : m < 2 ^ 30) :
    ∀ (k : Nat) (s : RootRange), optStateAt n m k = some s → s.low ≤ s.high →
      1 ≤ s.low ∧ s.low ≤ searchMid s.low s.high ∧ searchMid s.low s.high ≤ s.high ∧
      s.high ≤ m := by
  intro k s hs hlh
  have hm2 : m < 1073741824 := by norm_num at hm; exact hm
  obtain ⟨h1, h2⟩ := optStateAt_bounds n m hm2 k s hs
  have hmid := searchMid_eq s.low s.high (by omega) hlh (by omega)
  refine ⟨h1, by omega, by omega, h2⟩

/-- C13, amended, witness: `nthRootOptimal(2, 9)` starts round 1 with `low = 1`,
`high = 4` and probes `mid = 2`. -/
theorem nthRootOptimal_probe_in_range_witness :
    optStateAt 2 9 1 = some ⟨1, 4⟩ ∧ searchMid 1 4 = 2 ∧
    ((1 : Int) ≤ 1 ∧ (1 : Int) ≤ searchMid 1 4 ∧ searchMid 1 4 ≤ 4 ∧ (4 : Int) ≤ 9) :=
  ⟨by decide, by decide,
   nthRootOptimal_probe_in_range 2 9 (by decide) 1 ⟨1, 4⟩ (by decide) (by decide)⟩

/-- C14. Empty input yields the max-int sentinel: for the empty vector both `findMin`
variants start with `low = 0`, `high = size - 1 = -1`, so the loop test fails at
once (no round, no element access), and they return `INT_MAX = 2^31 - 1`. -/
theorem findMin_empty :
    (FindMinimumRotatedSortedArray.stateAt [] 0 = some ⟨0, -1, INT_MAX⟩ ∧
      FindMinimumRotatedSortedArray.findMinStep [] ⟨0, -1, INT_MAX⟩ = .exit INT_MAX ∧
      FindMinimumRotatedSortedArray.stateAt [] 1 = none ∧
      FindMinimumRotatedSortedArray.findMin [] = some INT_MAX) ∧
    (FindMinimumRotatedSortedArrayII.stateAt [] 0 = some ⟨0, -1, INT_MAX⟩ ∧
      FindMinimumRotatedSortedArrayII.findMinStep [] ⟨0, -1, INT_MAX⟩ = .exit INT_MAX ∧
      FindMinimumRotatedSortedArrayII.stateAt [] 1 = none ∧
      FindMinimumRotatedSortedArrayII.findMin [] = some INT_MAX) ∧
    INT_MAX = 2 ^ 31 - 1 := by
  decide

/-- C15, amended. Index safety of both `findMin` variants on vectors of at most `2^30`
elements: for every such input vector `nums` (arbitrary contents; in particular
every non-empty one), in every round that the run reaches the indices `low`, `mid`
and `high` lie in
`[0, |nums| - 1]`, the round reads no element outside the vector, and the call does
not end in the out-of-bounds branch (it returns a value). -/
theorem findMin_index_safe (nums : List Int) (hlen : nums.length ≤ 2 ^ 30) :
    ((∀ (k : Nat) (s : SearchState),
        FindMinimumRotatedSortedArray.stateAt nums k = some s → s.low ≤ s.high →
        (0 ≤ s.low ∧ s.low < nums.length) ∧
        (0 ≤ searchMid s.low s.high ∧ searchMid s.low s.high < nums.length) ∧
        (0 ≤ s.high ∧ s.high < nums.length) ∧
        FindMinimumRotatedSortedArray.findMinStep nums s ≠ .outOfRange) ∧
      FindMinimumRotatedSortedArray.findMin nums ≠ none) ∧
    ((∀ (k : Nat) (s : SearchState),
        FindMinimumRotatedSortedArrayII.stateAt nums k = some s → s.low ≤ s.high →
        (0 ≤ s.low ∧ s.low < nums.length) ∧
        (0 ≤ searchMid s.low s.high ∧ searchMid s.low s.high < nums.length) ∧
        (0 ≤ s.high ∧ s.high < nums.length) ∧
        FindMinimumRotatedSortedArrayII.findMinStep nums s ≠ .outOfRange) ∧
      FindMinimumRotatedSortedArrayII.findMin nums ≠ none) := by
  have hlen2 : (nums.length : Int) ≤ 1073741824 := by
    norm_num at hlen; exact_mod_cast hlen
  refine ⟨⟨?_, ?_⟩, ⟨?_, ?_⟩⟩
  · intro k s hs hlh
    obtain ⟨h0, h1⟩ := findMinDistinct_stateAt_bounds nums hlen2 k s hs
    have hmid := searchMid_eq s.low s.high h0 hlh (by omega)
    obtain ⟨t, ht, _⟩ := findMinDistinctStep_next nums hlen2 s h0 h1 hlh
    refine ⟨⟨h0, by omega⟩, ⟨by omega, by omega⟩, ⟨by omega, h1⟩, ?_⟩
    rw [ht]
    simp
  · obtain ⟨v, hv⟩ := findMinDistinct_returns nums hlen2
    rw [hv]
    simp
  · intro k s hs hlh
    obtain ⟨h0, h1⟩ := findMinDup_stateAt_bounds nums hlen2 k s hs
    have hmid := searchMid_eq s.low s.high h0 hlh (by omega)
    obtain ⟨t, ht, _⟩ := findMinDupStep_next nums hlen2 s h0 h1 hlh
    refine ⟨⟨h0, by omega⟩, ⟨by omega, by omega⟩, ⟨by omega, h1⟩, ?_⟩
    rw [ht]
    simp
  · obtain ⟨v, hv⟩ := findMinDup_returns nums hlen2
    rw [hv]
    simp

/-- C15, amended, witness: the vector `[3,1,2]`; round 1 of the first variant starts with
`low = 0`, `high = 0`, and both calls return `1`. -/
theorem findMin_index_safe_witness :
    FindMinimumRotatedSortedArray.stateAt [3, 1, 2] 1 = some ⟨0, 0, 1⟩ ∧
    FindMinimumRotatedSortedArray.findMin [3, 1, 2] = some 1 ∧
    FindMinimumRotatedSortedArrayII.findMin [3, 1, 2] = some 1 ∧
    (0 ≤ (0 : Int) ∧ (0 : Int) < ([3, 1, 2] : List Int).length) ∧
    FindMinimumRotatedSortedArray.findMin [3, 1, 2] ≠ none ∧
    FindMinimumRotatedSortedArrayII.findMin [3, 1, 2] ≠ none :=
  ⟨by decide, by decide, by decide,
   ((findMin_index_safe [3, 1, 2] (by decide)).1.1 1 ⟨0, 0, 1⟩ (by decide) (by decide)).1,
   (findMin_index_safe [3, 1, 2] (by decide)).1.2,
   (findMin_index_safe [3, 1, 2] (by decide)).2.2⟩

/-! ## The reported value is an element of the vector -/

theorem min?_le_of_mem (nums : List Int) (m v : Int) (h : nums.min? = some m)
    (hv : v ∈ nums) : m ≤ v := by
  haveI : Std.Antisymm (fun (x1 x2 : Int) => x1 ≤ x2) :=
    ⟨fun h1 h2 => le_antisymm h1 h2⟩
  have key : nums.min? = some m ↔ m ∈ nums ∧ ∀ b, b ∈ nums → m ≤ b :=
    List.min?_eq_some_iff (fun a => le_refl a)
      (fun a b => by rcases le_total a b with hab | hab <;> simp [hab])
      (fun a b c => le_min_iff)
  exact (key.mp h).2 v hv

theorem valAt_zero_of_head? (nums : List Int) (x : Int) (h : nums.head? = some x) :
    valAt nums 0 = x := by
  cases nums with
  | nil => simp at h
  | cons y ys =>
    simp only [List.head?_cons, Option.some.injEq] at h
    subst h
    simp [valAt]

theorem reportsElement_of_mem (nums : List Int) (result : Option Int) (v : Int)
    (hres : result = some v) (hv : v ∈ nums) (h0 : v ≤ valAt nums 0) :
    ReportsElement nums result := by
  refine ⟨v, hres, hv, ?_, ?_, ?_⟩
  · intro m hm
    exact min?_le_of_mem nums m v hm hv
  · intro x hx
    rw [← valAt_zero_of_head? nums x hx]
    exact h0
  · intro hmax
    rw [← hmax]
    exact hv

/-- The invariant behind `ReportsElement`: the accumulator is an element that is at
most `nums[0]`, or the run is about to start its first round with `ans = INT_MAX`. -/
theorem findMinDistinct_reports (nums : List Int) (hne : nums ≠ [])
    (hint : ∀ x ∈ nums, isInt32 x) (hlen : (nums.length : Int) ≤ 1073741824) :
    ReportsElement nums (FindMinimumRotatedSortedArray.findMin nums) := by
  have hpos : 0 < nums.length := List.length_pos.mpr hne
  have hmem : ∀ i : Int, 0 ≤ i → i < nums.length → valAt nums i ∈ nums ∧
      valAt nums i ≤ 2147483647 := fun i h0 h1 =>
    ⟨valAt_mem nums i h0 h1, (hint _ (valAt_mem nums i h0 h1)).2⟩
  have hrun := @search_run
    (fun fuel => FindMinimumRotatedSortedArray.findMinLoop fuel nums)
    (FindMinimumRotatedSortedArray.findMinStep nums)
    (fun fuel low high ans => findMinDistinctLoop_step fuel nums low high ans)
    (fun s => 0 ≤ s.low ∧ s.high < nums.length ∧
      ((s.ans ∈ nums ∧ s.ans ≤ valAt nums 0) ∨
        (s.low = 0 ∧ s.low ≤ s.high ∧ s.ans = 2147483647)))
    (fun v => v ∈ nums ∧ v ≤ valAt nums 0)
    (fun s hinv hlh => by
      obtain ⟨h0, h1, hans⟩ := hinv
      obtain ⟨t, ht, hcases⟩ := findMinDistinctStep_next nums hlen s h0 h1 hlh
      have hmid := searchMid_eq s.low s.high h0 hlh (by omega)
      obtain ⟨ha, ha'⟩ := hmem s.low h0 (by omega)
      obtain ⟨hc, hc'⟩ := hmem (searchMid s.low s.high) (by omega) (by omega)
      refine ⟨t, ht, ⟨?_, ?_, Or.inl ?_⟩, ?_⟩
      · rcases hcases with ⟨e1, _, _, _⟩ | ⟨e1, _, _, _⟩ <;> omega
      · rcases hcases with ⟨_, e2, _, _⟩ | ⟨_, e2, _, _⟩ <;> omega
      · rcases hcases with ⟨_, _, e3, hac⟩ | ⟨_, _, e3, hac⟩
        · have hsel : t.ans = s.ans ∨ t.ans = valAt nums s.low := by
            rw [e3]; split_ifs <;> omega
          have hle : t.ans ≤ s.ans ∧ t.ans ≤ valAt nums s.low := by
            rw [e3]; split_ifs <;> omega
          rcases hans with ⟨hm, hv0⟩ | ⟨hl0, _, hmax⟩
          · refine ⟨?_, by omega⟩
            rcases hsel with h | h <;> rw [h] <;> assumption
          · have hat : t.ans = valAt nums s.low := by omega
            rw [hat]
            refine ⟨ha, ?_⟩
            rw [hl0]
        · have hsel : t.ans = s.ans ∨ t.ans = valAt nums s.low ∨
              t.ans = valAt nums (searchMid s.low s.high) := by
            rw [e3]; split_ifs <;> omega
          have hle : t.ans ≤ s.ans ∧ t.ans ≤ valAt nums (searchMid s.low s.high) := by
            rw [e3]; split_ifs <;> omega
          rcases hans with ⟨hm, hv0⟩ | ⟨hl0, _, hmax⟩
          · refine ⟨?_, by omega⟩
            rcases hsel with h | h | h <;> rw [h] <;> assumption
          · have hat : t.ans = valAt nums (searchMid s.low s.high) := by omega
            rw [hat]
            refine ⟨hc, ?_⟩
            have ha0 : valAt nums s.low = valAt nums 0 := by rw [hl0]
            omega
      · rcases hcases with ⟨e1, e2, _, _⟩ | ⟨e1, e2, _, _⟩ <;> omega)
    (fun s hinv hlh => by
      refine ⟨findMinDistinctStep_exit nums s hlh, ?_⟩
      rcases hinv.2.2 with h | ⟨_, h, _⟩
      · exact h
      · exact absurd h hlh)
    (nums.length + 1) ⟨0, wrap32 ((nums.length : Int) - 1), INT_MAX⟩
    (by
      refine ⟨le_refl _, ?_, Or.inr ⟨rfl, ?_, rfl⟩⟩
      · simp only [wrap32]; omega
      · simp only [wrap32]; omega)
    (by simp only [wrap32]; push_cast; omega) (by omega)
  obtain ⟨v, hv, hmemv, hv0⟩ := hrun
  exact reportsElement_of_mem nums _ v hv hmemv hv0

/-- The same invariant for the duplicate-tolerant variant; the two-sided shrink also
records `nums[low]`. -/
theorem findMinDup_reports (nums : List Int) (hne : nums ≠ [])
    (hint : ∀ x ∈ nums, isInt32 x) (hlen : (nums.length : Int) ≤ 1073741824) :
    ReportsElement nums (FindMinimumRotatedSortedArrayII.findMin nums) := by
  have hpos : 0 < nums.length := List.length_pos.mpr hne
  have hmem : ∀ i : Int, 0 ≤ i → i < nums.length → valAt nums i ∈ nums ∧
      valAt nums i ≤ 2147483647 := fun i h0 h1 =>
    ⟨valAt_mem nums i h0 h1, (hint _ (valAt_mem nums i h0 h1)).2⟩
  have hrun := @search_run
    (fun fuel => FindMinimumRotatedSortedArrayII.findMinLoop fuel nums)
    (FindMinimumRotatedSortedArrayII.findMinStep nums)
    (fun fuel low high ans => findMinDupLoop_step fuel nums low high ans)
    (fun s => 0 ≤ s.low ∧ s.high < nums.length ∧
      ((s.ans ∈ nums ∧ s.ans ≤ valAt nums 0) ∨
        (s.low = 0 ∧ s.low ≤ s.high ∧ s.ans = 2147483647)))
    (fun v => v ∈ nums ∧ v ≤ valAt nums 0)
    (fun s hinv hlh => by
      obtain ⟨h0, h1, hans⟩ := hinv
      obtain ⟨t, ht, hcases⟩ := findMinDupStep_next nums hlen s h0 h1 hlh
      have hmid := searchMid_eq s.low s.high h0 hlh (by omega)
      obtain ⟨ha, ha'⟩ := hmem s.low h0 (by omega)
      obtain ⟨hc, hc'⟩ := hmem (searchMid s.low s.high) (by omega) (by omega)
      refine ⟨t, ht, ⟨?_, ?_, Or.inl ?_⟩, ?_⟩
      · rcases hcases with ⟨e1, _, _⟩ | ⟨e1, _, _, _⟩ | ⟨e1, _, _, _⟩ <;> omega
      · rcases hcases with ⟨_, e2, _⟩ | ⟨_, e2, _, _⟩ | ⟨_, e2, _, _⟩ <;> omega
      · rcases hcases with ⟨_, _, e3⟩ | ⟨_, _, e3, hac⟩ | ⟨_, _, e3, hac⟩
        · have hsel : t.ans = s.ans ∨ t.ans = valAt nums s.low := by
            rw [e3]; omega
          have hle : t.ans ≤ s.ans ∧ t.ans ≤ valAt nums s.low := by
            rw [e3]; omega
          rcases hans with ⟨hm, hv0⟩ | ⟨hl0, _, hmax⟩
          · refine ⟨?_, by omega⟩
            rcases hsel with h | h <;> rw [h] <;> assumption
          · have hat : t.ans = valAt nums s.low := by omega
            rw [hat]
            refine ⟨ha, ?_⟩
            rw [hl0]
        · have hsel : t.ans = s.ans ∨ t.ans = valAt nums s.low := by
            rw [e3]; split_ifs <;> omega
          have hle : t.ans ≤ s.ans ∧ t.ans ≤ valAt nums s.low := by
            rw [e3]; split_ifs <;> omega
          rcases hans with ⟨hm, hv0⟩ | ⟨hl0, _, hmax⟩
          · refine ⟨?_, by omega⟩
            rcases hsel with h | h <;> rw [h] <;> assumption
          · have hat : t.ans = valAt nums s.low := by omega
            rw [hat]
            refine ⟨ha, ?_⟩
            rw [hl0]
        · have hsel : t.ans = s.ans ∨ t.ans = valAt nums s.low ∨
              t.ans = valAt nums (searchMid s.low s.high) := by
            rw [e3]; split_ifs <;> omega
          have hle : t.ans ≤ s.ans ∧ t.ans ≤ valAt nums (searchMid s.low s.high) := by
            rw [e3]; split_ifs <;> omega
          rcases hans with ⟨hm, hv0⟩ | ⟨hl0, _, hmax⟩
          · refine ⟨?_, by omega⟩
            rcases hsel with h | h | h <;> rw [h] <;> assumption
          · have hat : t.ans = valAt nums (searchMid s.low s.high) := by omega
            rw [hat]
            refine ⟨hc, ?_⟩
            have ha0 : valAt nums s.low = valAt nums 0 := by rw [hl0]
            omega
      · rcases hcases with ⟨e1, e2, _⟩ | ⟨e1, e2, _, _⟩ | ⟨e1, e2, _, _⟩ <;> omega)
    (fun s hinv hlh => by
      refine ⟨findMinDupStep_exit nums s hlh, ?_⟩
      rcases hinv.2.2 with h | ⟨_, h, _⟩
      · exact h
      · exact absurd h hlh)
    (nums.length + 1) ⟨0, wrap32 ((nums.length : Int) - 1), INT_MAX⟩
    (by
      refine ⟨le_refl _, ?_, Or.inr ⟨rfl, ?_, rfl⟩⟩
      · simp only [wrap32]; omega
      · simp only [wrap32]; omega)
    (by simp only [wrap32]; push_cast; omega) (by omega)
  obtain ⟨v, hv, hmemv, hv0⟩ := hrun
  exact reportsElement_of_mem nums _ v hv hmemv hv0

/-- C16, amended. The reported minimum is a real element on vectors of at most `2^30`
elements: for every non-empty vector `nums` of 32-bit integers of length at most
`2^30` (arbitrary contents, not necessarily a rotated sorted sequence) each
`findMin` variant returns a value that
is an element of `nums`, at least the true minimum of `nums`, at most `nums[0]`, and
equal to the `INT_MAX` sentinel only if `INT_MAX` occurs in `nums`. -/
theorem findMin_reports_element (nums : List Int) (hne : nums ≠ [])
    (hint : ∀ x ∈ nums, isInt32 x) (hlen : nums.length ≤ 2 ^ 30) :
    ReportsElement nums (FindMinimumRotatedSortedArray.findMin nums) ∧
    ReportsElement nums (FindMinimumRotatedSortedArrayII.findMin nums) := by
  have hlen2 : (nums.length : Int) ≤ 1073741824 := by
    norm_num at hlen; exact_mod_cast hlen
  exact ⟨findMinDistinct_reports nums hne hint hlen2, findMinDup_reports nums hne hint hlen2⟩

/-- C16, amended, witness: on the unsorted vector `[3,1,4,1,5]` both variants return `1`, an
element between the minimum `1` and `nums[0] = 3`. -/
theorem findMin_reports_element_witness :
    FindMinimumRotatedSortedArray.findMin [3, 1, 4, 1, 5] = some 1 ∧
    FindMinimumRotatedSortedArrayII.findMin [3, 1, 4, 1, 5] = some 1 ∧
    ReportsElement [3, 1, 4, 1, 5] (FindMinimumRotatedSortedArray.findMin [3, 1, 4, 1, 5]) ∧
    ReportsElement [3, 1, 4, 1, 5] (FindMinimumRotatedSortedArrayII.findMin [3, 1, 4, 1, 5]) :=
  ⟨by decide, by decide,
   findMin_reports_element [3, 1, 4, 1, 5] (by decide) (by decide) (by decide)⟩

/-! ## Without repeated values the two variants coincide -/

theorem vecGet_inj (nums : List Int) (hnd : nums.Nodup) (i j x : Int)
    (hi : vecGet nums i = some x) (hj : vecGet nums j = some x) : i = j := by
  unfold vecGet at hi hj
  by_cases h0 : 0 ≤ i
  · by_cases h1 : 0 ≤ j
    · rw [if_pos h0] at hi
      rw [if_pos h1] at hj
      obtain ⟨hlt, _⟩ := List.getElem?_eq_some.mp hi
      have := List.getElem?_inj hlt hnd (hi.trans hj.symm)
      omega
    · rw [if_neg h1] at hj
      simp at hj
  · rw [if_neg h0] at hi
    simp at hi

/-- A probe that coincides with both ends of its range is an index below `2^30`. -/
theorem searchMid_self_small (l : Int) (h : searchMid l l = l) :
    l < 1073741824 := by
  unfold searchMid at h
  rcases le_or_lt 0 (wrap32 (l + l)) with hx | hx
  · rw [Int.tdiv_eq_ediv hx (by norm_num)] at h
    unfold wrap32 at h hx
    omega
  · have hneg : wrap32 (l + l) = -(-(wrap32 (l + l))) := by omega
    rw [hneg, Int.neg_tdiv, Int.tdiv_eq_ediv (by omega) (by norm_num)] at h
    unfold wrap32 at h hx
    omega

/-- After a round on a single-element range both loops leave at the next test. -/
theorem findMinLoops_after_single (nums : List Int) (fuel : Nat) (l A : Int) :
    FindMinimumRotatedSortedArray.findMinLoop fuel nums (l + 1) l A =
      FindMinimumRotatedSortedArrayII.findMinLoop fuel nums (l + 1) (l - 1) A := by
  cases fuel with
  | zero => rfl
  | succ fuel =>
    unfold FindMinimumRotatedSortedArray.findMinLoop
      FindMinimumRotatedSortedArrayII.findMinLoop
    rw [if_neg (by omega), if_neg (by omega)]

theorem findMinLoops_agree (nums : List Int) (hnd : nums.Nodup) :
    ∀ (fuel : Nat) (low high ans : Int),
      FindMinimumRotatedSortedArray.findMinLoop fuel nums low high ans =
        FindMinimumRotatedSortedArrayII.findMinLoop fuel nums low high ans := by
  intro fuel
  induction fuel with
  | zero => intro low high ans; rfl
  | succ fuel ih =>
    intro low high ans
    rw [findMinDistinctLoop_step, findMinDupLoop_step]
    unfold FindMinimumRotatedSortedArray.findMinStep
      FindMinimumRotatedSortedArrayII.findMinStep
    by_cases hlh : low ≤ high
    · simp only [hlh, if_true]
      cases ha : vecGet nums low with
      | none => rfl
      | some a =>
        cases hb : vecGet nums high with
        | none => rfl
        | some b =>
          cases hc : vecGet nums (searchMid low high) with
          | none => rfl
          | some c =>
            simp only []
            by_cases heq3 : c = a ∧ c = b
            · -- equal values at `low`, `mid`, `high`: the three indices coincide
              obtain ⟨hca, hcb⟩ := heq3
              subst hca hcb
              have hml : searchMid low high = low := vecGet_inj nums hnd _ _ c hc ha
              have hhl : high = low := vecGet_inj nums hnd _ _ c hb ha
              subst hhl
              have hnn : 0 ≤ high := by
                by_contra hcon
                unfold vecGet at ha
                rw [if_neg hcon] at ha
                simp at ha
              have hsmall := searchMid_self_small high hml
              rw [hml]
              simp only [le_refl, if_true, and_self]
              rw [wrap32_eq_self (x := high + 1) (by omega) (by omega),
                wrap32_eq_self (x := high - 1) (by omega) (by omega)]
              have hmin : min (min ans c) c = min ans c := by omega
              rw [hmin]
              exact findMinLoops_after_single nums fuel high (min ans c)
            · rw [if_neg heq3]
              by_cases hac : a ≤ c
              · simp only [hac, if_true]
                exact ih _ _ _
              · simp only [hac, if_false]
                exact ih _ _ _
    · simp only [hlh, if_false]

theorem length_ascendingVector (N : Nat) : (ascendingVector N).length = N := by
  simp [ascendingVector]

theorem vecGet_ascendingVector (N : Nat) (i : Int) (h0 : 0 ≤ i) (h1 : i < N) :
    vecGet (ascendingVector N) i = some i := by
  obtain ⟨a, rfl⟩ := Int.eq_ofNat_of_zero_le h0
  have ha : a < N := by exact_mod_cast h1
  simp [vecGet, ascendingVector, List.getElem?_range ha]

theorem vecGet_neg (nums : List Int) (i : Int) (h : i < 0) : vecGet nums i = none := by
  unfold vecGet
  rw [if_neg (by omega)]

theorem pairwise_ascendingVector (N : Nat) : (ascendingVector N).Pairwise (· < ·) := by
  unfold ascendingVector
  exact List.Pairwise.map _ (fun a b hab => Int.ofNat_lt.mpr hab) (List.pairwise_lt_range N)

theorem mem_ascendingVector (N : Nat) (x : Int) (hx : x ∈ ascendingVector N) :
    0 ≤ x ∧ x < N := by
  unfold ascendingVector at hx
  obtain ⟨a, ha, rfl⟩ := List.mem_map.mp hx
  rw [List.mem_range] at ha
  have hcast : Int.ofNat a = (a : Int) := rfl
  rw [hcast]
  exact ⟨by omega, by exact_mod_cast ha⟩

theorem rotate_zero_eq (S : List Int) : rotate S 0 = S := by
  simp [rotate]

theorem min?_ascendingVector (N : Nat) (hN : 0 < N) : (ascendingVector N).min? = some 0 := by
  have hp : (ascendingVector N).Pairwise (· ≤ ·) :=
    (pairwise_ascendingVector N).imp (fun h => le_of_lt h)
  rw [min?_eq_of_pairwise _ hp (by rw [length_ascendingVector]; exact hN)]
  have h := vecGet_ascendingVector N 0 (le_refl _) (by exact_mod_cast hN)
  rw [vecGet_eq_valAt _ 0 (le_refl _) (by rw [length_ascendingVector]; exact_mod_cast hN)] at h
  exact h

/-- On `[0, ..., 2^30]` the distinct-element loop, from any `low` in `[0, 2^30]` and
with `high = 2^30`, never returns a value: it climbs to `low = high = 2^30` and reads
`nums[-2^30]`. -/
theorem findMinDistinctLoop_ascending_none (N : Nat) (hN : (N : Int) = 1073741825) :
    ∀ (fuel : Nat) (low ans : Int), 0 ≤ low → low ≤ 1073741824 →
      FindMinimumRotatedSortedArray.findMinLoop fuel (ascendingVector N) low 1073741824 ans
        = none := by
  intro fuel
  induction fuel with
  | zero => intro low ans _ _; rfl
  | succ fuel ih =>
    intro low ans h0 h1
    simp only [FindMinimumRotatedSortedArray.findMinLoop]
    rw [if_pos h1]
    rcases eq_or_lt_of_le h1 with heq | hlt
    · subst heq
      have e : Int.tdiv (wrap32 (1073741824 + 1073741824)) 2 = -1073741824 := by decide
      rw [e, vecGet_neg _ (-1073741824) (by decide)]
      cases vecGet (ascendingVector N) 1073741824 <;> rfl
    · rw [wrap32_eq_self (x := low + 1073741824) (by omega) (by omega),
        Int.tdiv_eq_ediv (by omega) (by norm_num)]
      have hm1 : low ≤ (low + 1073741824) / 2 := by omega
      have hm2 : (low + 1073741824) / 2 < 1073741824 := by omega
      generalize (low + 1073741824) / 2 = mid at hm1 hm2
      rw [vecGet_ascendingVector N low h0 (by omega),
        vecGet_ascendingVector N 1073741824 (by decide) (by omega),
        vecGet_ascendingVector N mid (by omega) (by omega)]
      simp only []
      rw [if_pos hm1, wrap32_eq_self (x := mid + 1) (by omega) (by omega)]
      exact ih _ _ (by omega) (by omega)

theorem findMinDistinct_ascending_none (N : Nat) (hN : (N : Int) = 1073741825) :
    FindMinimumRotatedSortedArray.findMin (ascendingVector N) = none := by
  unfold FindMinimumRotatedSortedArray.findMin
  rw [length_ascendingVector, hN]
  have e : wrap32 (1073741825 - 1) = 1073741824 := by decide
  rw [e]
  exact findMinDistinctLoop_ascending_none N hN _ 0 _ (le_refl _) (by decide)

theorem nodup_ascendingVector (N : Nat) : (ascendingVector N).Nodup :=
  (pairwise_ascendingVector N).imp (fun h => ne_of_lt h)

theorem findMinDup_ascending_none (N : Nat) (hN : (N : Int) = 1073741825) :
    FindMinimumRotatedSortedArrayII.findMin (ascendingVector N) = none := by
  have h := findMinDistinct_ascending_none N hN
  unfold FindMinimumRotatedSortedArray.findMin at h
  unfold FindMinimumRotatedSortedArrayII.findMin
  rw [← findMinLoops_agree (ascendingVector N) (nodup_ascendingVector N)]
  exact h

/-- One round on `[0, ..., 2^30]` below the top: `low` moves to `mid + 1`. -/
theorem findMinDistinctStep_ascending (N : Nat) (hN : (N : Int) = 1073741825)
    (low ans : Int) (h0 : 0 ≤ low) (h1 : low < 1073741824) :
    FindMinimumRotatedSortedArray.findMinStep (ascendingVector N) ⟨low, 1073741824, ans⟩ =
      .next ⟨(low + 1073741824) / 2 + 1, 1073741824, min (min ans low) low⟩ := by
  unfold FindMinimumRotatedSortedArray.findMinStep searchMid
  simp only []
  rw [if_pos (by omega), wrap32_eq_self (x := low + 1073741824) (by omega) (by omega),
    Int.tdiv_eq_ediv (by omega) (by norm_num)]
  have hm1 : low ≤ (low + 1073741824) / 2 := by omega
  have hm2 : (low + 1073741824) / 2 < 1073741824 := by omega
  generalize (low + 1073741824) / 2 = mid at hm1 hm2
  rw [vecGet_ascendingVector N low h0 (by omega),
    vecGet_ascendingVector N 1073741824 (by decide) (by omega),
    vecGet_ascendingVector N mid (by omega) (by omega)]
  simp only []
  rw [if_pos hm1, if_pos (by omega), wrap32_eq_self (x := mid + 1) (by omega) (by omega)]

/-- The round of `[0, ..., 2^30]` that starts with `low = high = 2^30` reads
`nums[-2^30]`. -/
theorem findMinDistinctStep_ascending_top (N : Nat) (ans : Int) :
    FindMinimumRotatedSortedArray.findMinStep (ascendingVector N)
      ⟨1073741824, 1073741824, ans⟩ = .outOfRange := by
  have e : searchMid 1073741824 1073741824 = -1073741824 := by decide
  unfold FindMinimumRotatedSortedArray.findMinStep
  simp only []
  rw [if_pos (le_refl _), e, vecGet_neg _ (-1073741824) (by decide)]
  cases vecGet (ascendingVector N) 1073741824 <;> rfl

/-- The run on `[0, ..., 2^30]` starts round `k + 1` with `low = 2^30 - 2^(29-k) + 1`
and `high = 2^30`. -/
theorem findMinDistinct_stateAt_ascending (N : Nat) (hN : (N : Int) = 1073741825) :
    ∀ k : Nat, k ≤ 29 →
      FindMinimumRotatedSortedArray.stateAt (ascendingVector N) (k + 1) =
        some ⟨1073741824 - 2 ^ (29 - k) + 1, 1073741824, 0⟩ := by
  intro k
  induction k with
  | zero =>
    intro _
    have e : wrap32 (1073741825 - 1) = 1073741824 := by decide
    rw [FindMinimumRotatedSortedArray.stateAt, FindMinimumRotatedSortedArray.stateAt,
      length_ascendingVector, hN, e]
    simp only []
    rw [findMinDistinctStep_ascending N hN 0 INT_MAX (le_refl _) (by decide)]
    simp only [Option.some.injEq, SearchState.mk.injEq]
    refine ⟨by norm_num, trivial, by decide⟩
  | succ k ih =>
    intro hk
    have hy : (2 : Int) ^ (29 - k) = 2 * 2 ^ (28 - k) := by
      have : 29 - k = (28 - k) + 1 := by omega
      rw [this, pow_succ]
      ring
    have hy1 : (1 : Int) ≤ 2 ^ (28 - k) := one_le_pow₀ (by norm_num)
    have hy2 : (2 : Int) ^ (28 - k) ≤ 2 ^ 28 := pow_le_pow_right₀ (by norm_num) (by omega)
    have hexp : 29 - (k + 1) = 28 - k := by omega
    rw [FindMinimumRotatedSortedArray.stateAt, ih (by omega)]
    simp only []
    rw [hexp, hy]
    generalize (2 : Int) ^ (28 - k) = y at hy1 hy2
    norm_num at hy2
    rw [findMinDistinctStep_ascending N hN _ 0 (by omega) (by omega)]
    simp only [Option.some.injEq, SearchState.mk.injEq]
    refine ⟨by omega, trivial, by omega⟩

/-- A vector of `2^31 + 1` elements: `high = size - 1` converts to `-2^31`, the loop
is not entered and `INT_MAX` is returned. -/
theorem findMin_of_length_overflow (nums : List Int)
    (hlen : (nums.length : Int) = 2147483649) :
    FindMinimumRotatedSortedArray.findMin nums = some INT_MAX ∧
    FindMinimumRotatedSortedArrayII.findMin nums = some INT_MAX := by
  have e : wrap32 (2147483649 - 1) = -2147483648 := by decide
  unfold FindMinimumRotatedSortedArray.findMin FindMinimumRotatedSortedArrayII.findMin
  rw [hlen, e]
  simp only [FindMinimumRotatedSortedArray.findMinLoop,
    FindMinimumRotatedSortedArrayII.findMinLoop]
  rw [if_neg (by decide), if_neg (by decide)]
  exact ⟨rfl, rfl⟩

theorem not_mem_replicate_zero (N : Nat) : INT_MAX ∉ List.replicate N (0 : Int) := by
  intro h
  have := List.eq_of_mem_replicate h
  revert this
  decide

theorem isInt32_of_mem_replicate_zero (N : Nat) :
    ∀ x ∈ List.replicate N (0 : Int), isInt32 x := by
  intro x hx
  rw [List.eq_of_mem_replicate hx]
  decide

theorem isInt32_of_mem_ascendingVector (N : Nat) (hN : (N : Int) = 1073741825) :
    ∀ x ∈ ascendingVector N, isInt32 x := by
  intro x hx
  have := mem_ascendingVector N x hx
  unfold isInt32 INT_MIN INT_MAX
  omega

theorem not_reportsElement_none (nums : List Int) : ¬ ReportsElement nums none := by
  rintro ⟨v, hv, _⟩
  simp at hv

theorem ascendingVector_ne_nil (N : Nat) (hN : 0 < N) : ascendingVector N ≠ [] := by
  intro h
  have hl := length_ascendingVector N
  rw [h] at hl
  simp at hl
  omega

theorem replicate_zero_ne_nil (N : Nat) (hN : 0 < N) : List.replicate N (0 : Int) ≠ [] := by
  intro h
  have hl := List.length_replicate N (0 : Int)
  rw [h] at hl
  simp at hl
  omega

/-- C1, as stated, fails: `S = [0, 1, ..., 2^30]` is strictly ascending with `2^30 + 1`
elements of 32-bit range, yet the distinct-element `findMin` returns no value on
`rotate S 0 = S` (the sum `low + high` wraps at `low = high = 2^30` and `nums[-2^30]`
is read), while `min S = 0`. -/
theorem findMinDistinct_fails_on_long_vector :
    (ascendingVector 1073741825).length = 2 ^ 30 + 1 ∧
    (ascendingVector 1073741825).Pairwise (· < ·) ∧
    (∀ x ∈ ascendingVector 1073741825, isInt32 x) ∧
    0 < (ascendingVector 1073741825).length ∧
    FindMinimumRotatedSortedArray.findMin (rotate (ascendingVector 1073741825) 0) = none ∧
    (ascendingVector 1073741825).min? = some 0 := by
  have hN : ((1073741825 : Nat) : Int) = 1073741825 := by norm_num
  refine ⟨?_, pairwise_ascendingVector _, isInt32_of_mem_ascendingVector _ hN, ?_, ?_,
    min?_ascendingVector _ (by norm_num)⟩
  · rw [length_ascendingVector]; norm_num
  · rw [length_ascendingVector]; norm_num
  · rw [rotate_zero_eq]
    exact findMinDistinct_ascending_none _ hN

/-- C2, as stated, fails: on the non-decreasing `S = [0, 1, ..., 2^30]` of `2^30 + 1`
elements the duplicate-tolerant `findMin` returns no value on `rotate S 0 = S` (the
same overflow of `low + high` at `low = high = 2^30`), while `min S = 0`. -/
theorem findMinWithDuplicates_fails_on_long_vector :
    (ascendingVector 1073741825).length = 2 ^ 30 + 1 ∧
    (ascendingVector 1073741825).Pairwise (· ≤ ·) ∧
    (∀ x ∈ ascendingVector 1073741825, isInt32 x) ∧
    0 < (ascendingVector 1073741825).length ∧
    FindMinimumRotatedSortedArrayII.findMin (rotate (ascendingVector 1073741825) 0) = none ∧
    (ascendingVector 1073741825).min? = some 0 := by
  have hN : ((1073741825 : Nat) : Int) = 1073741825 := by norm_num
  refine ⟨?_, (pairwise_ascendingVector _).imp (fun h => le_of_lt h),
    isInt32_of_mem_ascendingVector _ hN, ?_, ?_, min?_ascendingVector _ (by norm_num)⟩
  · rw [length_ascendingVector]; norm_num
  · rw [length_ascendingVector]; norm_num
  · rw [rotate_zero_eq]
    exact findMinDup_ascending_none _ hN

/-- C15, as stated, fails: on the non-empty vector `[0, 1, ..., 2^30]` round 30 of the
distinct-element `findMin` starts with `low = high = 2^30`; the sum wraps, the probe
is `mid = -2^30 < 0`, and the round reads outside the vector. Both variants end in
the out-of-bounds branch. -/
theorem findMin_index_unsafe_on_long_vector :
    ascendingVector 1073741825 ≠ [] ∧
    (ascendingVector 1073741825).length = 2 ^ 30 + 1 ∧
    FindMinimumRotatedSortedArray.stateAt (ascendingVector 1073741825) 30 =
      some ⟨1073741824, 1073741824, 0⟩ ∧
    searchMid 1073741824 1073741824 = -1073741824 ∧
    ¬ (0 : Int) ≤ searchMid 1073741824 1073741824 ∧
    FindMinimumRotatedSortedArray.findMinStep (ascendingVector 1073741825)
      ⟨1073741824, 1073741824, 0⟩ = .outOfRange ∧
    FindMinimumRotatedSortedArray.findMin (ascendingVector 1073741825) = none ∧
    FindMinimumRotatedSortedArrayII.findMin (ascendingVector 1073741825) = none := by
  have hN : ((1073741825 : Nat) : Int) = 1073741825 := by norm_num
  refine ⟨ascendingVector_ne_nil _ (by norm_num), ?_, ?_, by decide, by decide,
    findMinDistinctStep_ascending_top _ 0, findMinDistinct_ascending_none _ hN,
    findMinDup_ascending_none _ hN⟩
  · rw [length_ascendingVector]; norm_num
  · have h := findMinDistinct_stateAt_ascending 1073741825 hN 29 (le_refl _)
    norm_num at h
    exact h

/-- C16, as stated, fails: on the non-empty vector of `2^31 + 1` zeros `size - 1`
converts to `-2^31`, no round runs and both variants return `INT_MAX`, which is not
an element; and on `[0, 1, ..., 2^30]` no value is returned at all. -/
theorem findMin_reports_no_element_on_long_vector :
    (List.replicate 2147483649 (0 : Int) ≠ [] ∧
      (∀ x ∈ List.replicate 2147483649 (0 : Int), isInt32 x) ∧
      FindMinimumRotatedSortedArray.findMin (List.replicate 2147483649 0) = some INT_MAX ∧
      FindMinimumRotatedSortedArrayII.findMin (List.replicate 2147483649 0) = some INT_MAX ∧
      INT_MAX ∉ List.replicate 2147483649 (0 : Int) ∧
      ¬ ReportsElement (List.replicate 2147483649 0)
          (FindMinimumRotatedSortedArray.findMin (List.replicate 2147483649 0))) ∧
    (ascendingVector 1073741825 ≠ [] ∧
      (∀ x ∈ ascendingVector 1073741825, isInt32 x) ∧
      FindMinimumRotatedSortedArray.findMin (ascendingVector 1073741825) = none ∧
      ¬ ReportsElement (ascendingVector 1073741825)
          (FindMinimumRotatedSortedArray.findMin (ascendingVector 1073741825))) := by
  have hN : ((1073741825 : Nat) : Int) = 1073741825 := by norm_num
  have hZ : ((List.replicate 2147483649 (0 : Int)).length : Int) = 2147483649 := by
    rw [List.length_replicate]; norm_num
  have hfz := findMin_of_length_overflow _ hZ
  have hfa := findMinDistinct_ascending_none 1073741825 hN
  refine ⟨⟨replicate_zero_ne_nil _ (by norm_num), isInt32_of_mem_replicate_zero _,
    hfz.1, hfz.2, not_mem_replicate_zero _, ?_⟩,
    ⟨ascendingVector_ne_nil _ (by norm_num), isInt32_of_mem_ascendingVector _ hN, hfa, ?_⟩⟩
  · rw [hfz.1]
    rintro ⟨v, hv, hmem, _⟩
    rw [← Option.some.inj hv] at hmem
    exact not_mem_replicate_zero _ hmem
  · rw [hfa]
    exact not_reportsElement_none _
